import Mathlib

/-!
The repository city_search

Two programs: `saveourpeople.c` (a 0/1 knapsack over city names, below) and
`citylist.c` (a search tree and a linear search, further down).

Part 1, saveourpeople.c : the 0/1 knapsack over city names

A shallow embedding of the optimizer of `src/save_people/saveourpeople.c`
(the code of `main` after the cities have been read): the forward dynamic
program over `dp` and `path`, the scan for the best total, the reverse
traceback and the output loop.

* C `int` and `long long` values are exact integers (`Int`).
* The C arrays `dp` and `path[i]` are lists of length `NAME_LIMIT + 1`; every
  subscript is checked, and a subscript outside the array makes the run
  yield `none`.
* `path` is given one row per city read (`count` rows); the rows
  `count .. MAX_CITIES - 1` of the C array are never read or written.
* `saved_cities[k]` points at `cities[i].name`; the pointer is recorded as
  the index `i`.
-/

namespace SaveOurPeople

/-- The constant `MAX_CITIES` of the program. -/
def MAX_CITIES : Nat := 100

/-- The constant `NAME_LIMIT` of the program (the capacity). -/
def NAME_LIMIT : Nat := 100

/-- The struct `City`: a name, its population (the value) and the length of
the name (the weight). -/
structure City where
  name : String
  population : Int
  name_length : Int
deriving DecidableEq

/-- Checked read `a[j]` of a C array with a signed subscript. -/
def rd {α : Type} (a : List α) (j : Int) : Option α :=
  if 0 ≤ j then a[j.toNat]? else none

/-- Checked write `a[j] = v` of a C array with a signed subscript. -/
def wr {α : Type} (a : List α) (j : Int) (v : α) : Option (List α) :=
  if 0 ≤ j ∧ j.toNat < a.length then some (a.set j.toNat v) else none

/-- The two tables of `main`: `dp` and the choice trace `path`. -/
structure Tables where
  dp : List Int
  path : List (List Bool)
deriving DecidableEq

/-- The inner loop `for (j = NAME_LIMIT; j >= cities[i].name_length; j--)` for
city `c = cities[i]`, with `n` iterations left: the next iteration has
`j = c.name_length + n - 1`. -/
def innerLoop (c : City) (i : Nat) : Nat → Tables → Option Tables
  | 0, t => some t
  | n + 1, t => do
    let j : Int := c.name_length + n
    let prev ← rd t.dp (j - c.name_length)
    let cur ← rd t.dp j
    let new_pop := prev + c.population
    if new_pop > cur then
      let dp ← wr t.dp j new_pop
      let row ← t.path[i]?
      let row ← wr row j true
      innerLoop c i n ⟨dp, t.path.set i row⟩
    else
      innerLoop c i n t

/-- The number of iterations of the inner loop for city `c`: `j` runs from
`cap` down to `c.name_length`. -/
def innerCount (cap : Nat) (c : City) : Nat :=
  ((cap : Int) + 1 - c.name_length).toNat

/-- The outer loop `for (i = 0; i < count; i++)` over the cities still to
process, `i` being the index of the first of them. -/
def forwardLoop (cap : Nat) : List City → Nat → Tables → Option Tables
  | [], _, t => some t
  | c :: rest, i, t => do
    let t ← innerLoop c i (innerCount cap c) t
    forwardLoop cap rest (i + 1) t

/-- The tables as declared: `dp` and `path` zero-initialised. -/
def initTables (cap : Nat) (count : Nat) : Tables :=
  ⟨List.replicate (cap + 1) 0, List.replicate count (List.replicate (cap + 1) false)⟩

/-- One iteration of the scan: `if (dp[i] > dp[best_char_count]) best_char_count = i`. -/
def scanStep (dp : List Int) (best_char_count : Nat) (i : Nat) : Option Nat := do
  let a ← dp[i]?
  let b ← dp[best_char_count]?
  pure (if a > b then i else best_char_count)

/-- The scan `for (i = 1; i <= NAME_LIMIT; i++)` starting from
`best_char_count = 0`. -/
def scanMax (cap : Nat) (dp : List Int) : Option Nat :=
  (List.range' 1 cap).foldlM (scanStep dp) 0

/-- The traceback `for (i = count - 1; i >= 0; i--)` with `k` iterations left:
the next iteration has `i = k - 1`. -/
def traceback (cities : List City) (path : List (List Bool)) :
    Nat → Int → List Nat → Option (List Nat)
  | 0, _, saved => some saved
  | i + 1, remaining, saved => do
    let c ← cities[i]?
    if remaining ≥ c.name_length then
      let row ← path[i]?
      let used ← rd row remaining
      if used then
        traceback cities path i (remaining - c.name_length) (saved ++ [i])
      else
        traceback cities path i remaining saved
    else
      traceback cities path i remaining saved

/-- The output loop `for (i = saved_count - 1; i >= 0; i--)`: the names that
are printed, in the order they are printed. -/
def printed (cities : List City) (saved : List Nat) : Option (List String) :=
  saved.reverse.mapM fun i => (cities[i]?).map City.name

/-- What a run reports: the winning index of the scan, the total printed
(`dp[best_char_count]`), `saved_cities` in the order the traceback filled it,
and the names in the order they are printed. -/
structure Result where
  best_char_count : Nat
  best_value : Int
  saved : List Nat
  names : List String
deriving DecidableEq

/-- The optimizer: forward pass, scan, traceback and output, for the capacity
`cap` (`NAME_LIMIT` in the program). -/
def optimize (cap : Nat) (cities : List City) : Option Result := do
  let t ← forwardLoop cap cities 0 (initTables cap cities.length)
  let best_char_count ← scanMax cap t.dp
  let saved ← traceback cities t.path cities.length best_char_count []
  let best_value ← t.dp[best_char_count]?
  let names ← printed cities saved
  pure ⟨best_char_count, best_value, saved, names⟩

/-- The cities that `saved_cities` points at. -/
def chosen (cities : List City) (saved : List Nat) : List City :=
  saved.filterMap fun i => cities[i]?

/-- Total weight of a list of cities. -/
def totalLength (s : List City) : Int := (s.map City.name_length).sum

/-- Total value of a list of cities. -/
def totalPopulation (s : List City) : Int := (s.map City.population).sum

/-- The cities of the concrete scenario: A (weight 3, value 10), B (weight 4,
value 40), C (weight 2, value 30). -/
def scenario : List City :=
  [⟨"A", 10, 3⟩, ⟨"B", 40, 4⟩, ⟨"C", 30, 2⟩]

/-- The sub-lists of `cities` (each city used at most once) that fit in the
capacity `cap`, by their total value. -/
def feasibleValues (cap : Nat) (cities : List City) : Set Int :=
  {v | ∃ s : List City, s.Sublist cities ∧ totalLength s ≤ cap ∧ totalPopulation s = v}

/-! ### Closed form of the tables

With non-negative weights the in-place descending loop computes, cell by
cell, the functions below; they are used to reason about the loops. -/

/-- The list of length `cap + 1` whose cell `j` holds `f j`. -/
def tab {α : Type} (cap : Nat) (f : Nat → α) : List α :=
  (List.range (cap + 1)).map f

/-- Whether the inner loop for `c` improves cell `j`, on the cells `f` it
starts from. -/
def flag (c : City) (f : Nat → Int) (j : Nat) : Bool :=
  decide (c.name_length.toNat ≤ j ∧ f j < f (j - c.name_length.toNat) + c.population)

/-- Cell `j` of `dp` after the inner loop for `c`, on the cells `f` it starts
from. -/
def upd (c : City) (f : Nat → Int) (j : Nat) : Int :=
  if flag c f j then f (j - c.name_length.toNat) + c.population else f j

/-- Cell `j` of `dp` after the last `n` iterations of the inner loop for `c`
(those for `j = c.name_length + n - 1` down to `c.name_length`), on the cells
`f` they start from. -/
def updBelow (c : City) (n : Nat) (f : Nat → Int) (j : Nat) : Int :=
  if j < c.name_length.toNat + n then upd c f j else f j

/-- Cell `j` of the row `path[i]` after the last `n` iterations of the inner
loop for `c`, on the cells `f` of `dp` and `g` of the row they start from. -/
def flagBelow (c : City) (n : Nat) (f : Nat → Int) (g : Nat → Bool) (j : Nat) : Bool :=
  if j < c.name_length.toNat + n ∧ flag c f j = true then true else g j

/-- The cells of `dp` after the cities `l` have been processed, from the
cells `f`. -/
def tblFrom (f : Nat → Int) : List City → Nat → Int
  | [] => f
  | c :: l => tblFrom (upd c f) l

/-- The cells of `dp` after the cities `l` have been processed, from the
zero table. -/
def tbl (l : List City) : Nat → Int := tblFrom (fun _ => 0) l

/-- The rows of `path` written while the cities `l` are processed, from the
cells `f` of `dp`. -/
def rowsFrom (cap : Nat) (f : Nat → Int) : List City → List (List Bool)
  | [] => []
  | c :: l => tab cap (flag c f) :: rowsFrom cap (upd c f) l

/-- The indices the traceback saves over the first `i` cities from
`remaining = r`, in the order it saves them. -/
def sel (cities : List City) : Nat → Nat → List Nat
  | 0, _ => []
  | i + 1, r =>
    match cities[i]? with
    | none => []
    | some c =>
      if flag c (tbl (cities.take i)) r then i :: sel cities i (r - c.name_length.toNat)
      else sel cities i r

/-- The cities the traceback saves over the cities `rev` (given last city
first) from `remaining = r`, in the order it saves them. -/
def selC : List City → Nat → List City
  | [], _ => []
  | c :: rev, r =>
    if flag c (tbl rev.reverse) r then c :: selC rev (r - c.name_length.toNat)
    else selC rev r

/-- What a run shows of its result: the winning index, the total and the names
printed. -/
def Result.shown (r : Result) : Nat × Int × List String :=
  (r.best_char_count, r.best_value, r.names)

/-- The values of the C type `int` (32-bit signed). -/
def inInt (x : Int) : Prop := -2 ^ 31 ≤ x ∧ x < 2 ^ 31

/-- The values of the C type `long long` (64-bit signed). -/
def inLongLong (x : Int) : Prop := -2 ^ 63 ≤ x ∧ x < 2 ^ 63

instance (x : Int) : Decidable (inInt x) := by
  unfold inInt
  infer_instance

instance (x : Int) : Decidable (inLongLong x) := by
  unfold inLongLong
  infer_instance

/-- The addition `dp[j - name_length] + population` carried out in `long long`:
a sum outside the type is a signed overflow, which is undefined. -/
def addLongLong (a b : Int) : Option Int :=
  if inLongLong (a + b) then some (a + b) else none

/-- The inner loop with `new_pop` computed in `long long` (`addLongLong`)
instead of exactly. -/
def innerLoopLL (c : City) (i : Nat) : Nat → Tables → Option Tables
  | 0, t => some t
  | n + 1, t => do
    let j : Int := c.name_length + n
    let prev ← rd t.dp (j - c.name_length)
    let cur ← rd t.dp j
    let new_pop ← addLongLong prev c.population
    if new_pop > cur then
      let dp ← wr t.dp j new_pop
      let row ← t.path[i]?
      let row ← wr row j true
      innerLoopLL c i n ⟨dp, t.path.set i row⟩
    else
      innerLoopLL c i n t

/-- The outer loop over `innerLoopLL`. -/
def forwardLoopLL (cap : Nat) : List City → Nat → Tables → Option Tables
  | [], _, t => some t
  | c :: rest, i, t => do
    let t ← innerLoopLL c i (innerCount cap c) t
    forwardLoopLL cap rest (i + 1) t

/-- Every cell of `dp` lies between `-b` and `b`. -/
def Bounded (b : Int) (dp : List Int) : Prop :=
  ∀ (k : Nat) (x : Int), dp[k]? = some x → -b ≤ x ∧ x ≤ b

end SaveOurPeople

/-!
Part 2, citylist.c : search tree by latitude or longitude, linear search

A shallow embedding of `insert_bst_latitude`, `insert_bst_longitude`,
`inorder_traversal` and `linear_search` of `src/homework8/citylist.c`.

* The `double` coordinates are taken in a linearly ordered type `K` (doubles
  without NaN).
* A `City *` is recorded as the city it points at; a `NULL` node pointer is
  `BSTNode.null`.
* The output array of `inorder_traversal` is a list, written with a checked
  subscript.
-/

namespace CityList

/-- The struct `City` of `citylist.c`. -/
structure City (K : Type) where
  name : String
  state : String
  latitude : K
  longitude : K
  population : Int

/-- The struct `BSTNode`, with `null` for the `NULL` pointer. -/
inductive BSTNode (K : Type) where
  | null : BSTNode K
  | node (city : City K) (left right : BSTNode K) : BSTNode K

/-- The function `insert_bst_latitude`. -/
def insert_bst_latitude {K : Type} [LinearOrder K] : BSTNode K → City K → BSTNode K
  | .null, city => .node city .null .null
  | .node c left right, city =>
    if city.latitude < c.latitude then .node c (insert_bst_latitude left city) right
    else .node c left (insert_bst_latitude right city)

/-- The function `insert_bst_longitude`. -/
def insert_bst_longitude {K : Type} [LinearOrder K] : BSTNode K → City K → BSTNode K
  | .null, city => .node city .null .null
  | .node c left right, city =>
    if city.longitude < c.longitude then .node c (insert_bst_longitude left city) right
    else .node c left (insert_bst_longitude right city)

/-- The function `inorder_traversal` on the state `(array, *index)`: the write
`array[*index] = root->city` is checked against the length of the array. -/
def inorder_traversal {K : Type} :
    BSTNode K → List (City K) × Nat → Option (List (City K) × Nat)
  | .null, s => some s
  | .node c left right, s => do
    let (array, index) ← inorder_traversal left s
    if index < array.length then inorder_traversal right (array.set index c, index + 1)
    else none

/-- The loop of `linear_search` with `n` iterations left, at index `i`. -/
def linear_search_loop {K : Type} (array : List (City K)) (target : String) :
    Nat → Nat → Option Int
  | 0, _ => some (-1)
  | n + 1, i => do
    let c ← array[i]?
    if c.name = target then some (i : Int) else linear_search_loop array target n (i + 1)

/-- The function `linear_search`; `strcmp(..) == 0` is equality of the names. -/
def linear_search {K : Type} (array : List (City K)) (size : Nat) (target : String) :
    Option Int :=
  linear_search_loop array target size 0

/-- The loop of `read_csv_file` that builds the tree by latitude:
`lat_root = insert_bst_latitude(lat_root, &cities[i])` for `i = 0 .. count - 1`. -/
def build_latitude {K : Type} [LinearOrder K] (cities : List (City K)) : BSTNode K :=
  cities.foldl insert_bst_latitude .null

/-- The insertion by an arbitrary key, of which the two insertions are
instances. -/
def insertBy {K : Type} [LinearOrder K] (key : City K → K) : BSTNode K → City K → BSTNode K
  | .null, city => .node city .null .null
  | .node c left right, city =>
    if key city < key c then .node c (insertBy key left city) right
    else .node c left (insertBy key right city)

/-- The cities of a tree, left to right. -/
def BSTNode.toList {K : Type} : BSTNode K → List (City K)
  | .null => []
  | .node c left right => left.toList ++ c :: right.toList

/-- The search-tree property for the key `key`: in every node the keys of the
left subtree are strictly less than the key of the node and those of the right
subtree are at least it. -/
def IsBST {K : Type} [LinearOrder K] (key : City K → K) : BSTNode K → Prop
  | .null => True
  | .node c left right =>
    (∀ x ∈ left.toList, key x < key c) ∧ (∀ x ∈ right.toList, key c ≤ key x) ∧
      IsBST key left ∧ IsBST key right

/-- Three cities with integer coordinates. -/
def sample : List (City Int) :=
  [⟨"New York", "NY", 40, -74, 8000000⟩, ⟨"Los Angeles", "CA", 34, -118, 3900000⟩,
   ⟨"Chicago", "IL", 41, -87, 2700000⟩]

/-- A tree over three cities that is a search tree by latitude and by
longitude. -/
def sampleTree : BSTNode Int :=
  .node ⟨"New York", "NY", 40, -74, 8000000⟩
    (.node ⟨"Los Angeles", "CA", 34, -118, 3900000⟩ .null .null)
    (.node ⟨"Boston", "MA", 42, -71, 650000⟩ .null .null)

end CityList

namespace SaveOurPeople

/-! ### Arrays -/

theorem tab_length {α : Type} (cap : Nat) (f : Nat → α) : (tab cap f).length = cap + 1 := by
  simp [tab]

theorem tab_getElem? {α : Type} (cap : Nat) (f : Nat → α) (j : Nat) (h : j ≤ cap) :
    (tab cap f)[j]? = some (f j) := by
  have : j < cap + 1 := by omega
  simp [tab, List.getElem?_map, List.getElem?_range this]

theorem tab_congr {α : Type} (cap : Nat) (f g : Nat → α) (h : ∀ j, j ≤ cap → f j = g j) :
    tab cap f = tab cap g := by
  unfold tab
  apply List.map_congr_left
  intro j hj
  exact h j (by have := List.mem_range.mp hj; omega)

theorem replicate_eq_tab {α : Type} (cap : Nat) (x : α) :
    List.replicate (cap + 1) x = tab cap (fun _ => x) := by
  apply List.ext_getElem?
  intro j
  by_cases h : j ≤ cap
  · rw [tab_getElem? _ _ _ h]
    have : j < cap + 1 := by omega
    simp [List.getElem?_replicate, this]
  · rw [List.getElem?_eq_none (by simp; omega), List.getElem?_eq_none (by simp [tab_length]; omega)]

theorem rd_tab {α : Type} (cap : Nat) (f : Nat → α) (j : Nat) (h : j ≤ cap) :
    rd (tab cap f) (j : Int) = some (f j) := by
  simp [rd, tab_getElem? _ _ _ h]

theorem wr_tab {α : Type} (cap : Nat) (f : Nat → α) (j : Nat) (v : α) (h : j ≤ cap) :
    wr (tab cap f) (j : Int) v = some (tab cap (Function.update f j v)) := by
  have hlt : j < cap + 1 := by omega
  simp only [wr, tab_length, Int.toNat_ofNat, Int.ofNat_zero_le, hlt, and_self, if_true]
  congr 1
  apply List.ext_getElem?
  intro k
  by_cases hk : k ≤ cap
  · rw [tab_getElem? _ _ _ hk, List.getElem?_set]
    by_cases hjk : j = k
    · subst hjk
      simp [tab_length, hlt]
    · simp [hjk, tab_getElem? _ _ _ hk, Function.update, Ne.symm hjk]
  · rw [List.getElem?_eq_none (by simp [tab_length]; omega),
      List.getElem?_eq_none (by simp [tab_length]; omega)]

/-! ### The inner loop -/

theorem updBelow_succ_of_gt (c : City) (n : Nat) (f : Nat → Int)
    (h : f n + c.population > f (c.name_length.toNat + n)) :
    updBelow c n (Function.update f (c.name_length.toNat + n) (f n + c.population))
      = updBelow c (n + 1) f := by
  funext j
  simp only [updBelow, upd, flag, Function.update, eq_rec_constant, dite_eq_ite]
  by_cases h1 : j < c.name_length.toNat + n
  · have e1 : ¬ j = c.name_length.toNat + n := by omega
    have e2 : ¬ j - c.name_length.toNat = c.name_length.toNat + n := by omega
    have e3 : j < c.name_length.toNat + (n + 1) := by omega
    simp [h1, e1, e2, e3]
  · by_cases h2 : j = c.name_length.toNat + n
    · subst h2
      simp [h]
    · have e3 : ¬ j < c.name_length.toNat + (n + 1) := by omega
      simp [h1, h2, e3]

theorem updBelow_succ_of_le (c : City) (n : Nat) (f : Nat → Int)
    (h : ¬ f n + c.population > f (c.name_length.toNat + n)) :
    updBelow c n f = updBelow c (n + 1) f := by
  funext j
  simp only [updBelow, upd, flag]
  by_cases h1 : j < c.name_length.toNat + n
  · have e3 : j < c.name_length.toNat + (n + 1) := by omega
    simp [h1, e3]
  · by_cases h2 : j = c.name_length.toNat + n
    · subst h2
      have h3 : ¬ f (c.name_length.toNat + n) < f n + c.population := h
      simp [h3]
    · have e3 : ¬ j < c.name_length.toNat + (n + 1) := by omega
      simp [h1, e3]

theorem flagBelow_succ_of_gt (c : City) (n : Nat) (f : Nat → Int) (g : Nat → Bool)
    (h : f n + c.population > f (c.name_length.toNat + n)) :
    flagBelow c n (Function.update f (c.name_length.toNat + n) (f n + c.population))
        (Function.update g (c.name_length.toNat + n) true)
      = flagBelow c (n + 1) f g := by
  funext j
  simp only [flagBelow, flag, Function.update, eq_rec_constant, dite_eq_ite]
  by_cases h1 : j < c.name_length.toNat + n
  · have e1 : ¬ j = c.name_length.toNat + n := by omega
    have e2 : ¬ j - c.name_length.toNat = c.name_length.toNat + n := by omega
    have e3 : j < c.name_length.toNat + (n + 1) := by omega
    simp [h1, e1, e2, e3]
  · by_cases h2 : j = c.name_length.toNat + n
    · subst h2
      simp [h]
    · have e3 : ¬ j < c.name_length.toNat + (n + 1) := by omega
      simp [h1, h2, e3]

theorem flagBelow_succ_of_le (c : City) (n : Nat) (f : Nat → Int) (g : Nat → Bool)
    (h : ¬ f n + c.population > f (c.name_length.toNat + n)) :
    flagBelow c n f g = flagBelow c (n + 1) f g := by
  funext j
  simp only [flagBelow, flag]
  by_cases h1 : j < c.name_length.toNat + n
  · have e3 : j < c.name_length.toNat + (n + 1) := by omega
    simp [h1, e3]
  · by_cases h2 : j = c.name_length.toNat + n
    · subst h2
      have h3 : ¬ f (c.name_length.toNat + n) < f n + c.population := h
      simp [h3]
    · have e3 : ¬ j < c.name_length.toNat + (n + 1) := by omega
      simp [h1, e3]

/-- The last `n` iterations of the inner loop, for a city of non-negative
weight: they succeed and compute `updBelow` and `flagBelow`. -/
theorem innerLoop_spec (cap : Nat) (c : City) (i : Nat) (hw : 0 ≤ c.name_length) :
    ∀ (n : Nat) (f : Nat → Int) (g : Nat → Bool) (path : List (List Bool)),
      (n ≠ 0 → c.name_length.toNat + n ≤ cap + 1) → path[i]? = some (tab cap g) →
      innerLoop c i n ⟨tab cap f, path⟩
        = some ⟨tab cap (updBelow c n f), path.set i (tab cap (flagBelow c n f g))⟩ := by
  intro n
  induction n with
  | zero =>
    intro f g path _ hp
    have e1 : updBelow c 0 f = f := by
      funext j
      by_cases h : j < c.name_length.toNat
      · have : ¬ c.name_length.toNat ≤ j := by omega
        simp [updBelow, upd, flag, this]
      · simp [updBelow, h]
    have e2 : flagBelow c 0 f g = g := by
      funext j
      by_cases h : j < c.name_length.toNat
      · have : ¬ c.name_length.toNat ≤ j := by omega
        simp [flagBelow, flag, this]
      · simp [flagBelow, h]
    have hi : i < path.length := by
      by_contra hcon
      rw [List.getElem?_eq_none (by omega)] at hp
      exact Option.noConfusion hp
    have e3 : path.set i (tab cap g) = path := by
      apply List.ext_getElem?
      intro k
      rw [List.getElem?_set]
      by_cases hk : i = k
      · subst hk
        simp [hi, hp]
      · simp [hk]
    simp [innerLoop, e1, e2, e3]
  | succ n ih =>
    intro f g path hn hp
    have hn := hn (Nat.succ_ne_zero n)
    have hj : c.name_length + (n : Int) = ((c.name_length.toNat + n : Nat) : Int) := by
      rw [Nat.cast_add, Int.toNat_of_nonneg hw]
    have hi : i < path.length := by
      by_contra hcon
      rw [List.getElem?_eq_none (by omega)] at hp
      exact Option.noConfusion hp
    have r1 : rd (tab cap f) (c.name_length + (n : Int) - c.name_length) = some (f n) := by
      have : c.name_length + (n : Int) - c.name_length = (n : Int) := by ring
      rw [this]
      exact rd_tab cap f n (by omega)
    have r2 : rd (tab cap f) (c.name_length + (n : Int)) = some (f (c.name_length.toNat + n)) := by
      rw [hj]
      exact rd_tab cap f _ (by omega)
    by_cases hgt : f n + c.population > f (c.name_length.toNat + n)
    · have w1 := wr_tab cap f (c.name_length.toNat + n) (f n + c.population) (by omega)
      have w2 := wr_tab cap g (c.name_length.toNat + n) true (by omega)
      rw [← hj] at w1 w2
      have hp2 : (path.set i (tab cap (Function.update g (c.name_length.toNat + n) true)))[i]?
          = some (tab cap (Function.update g (c.name_length.toNat + n) true)) := by
        rw [List.getElem?_set]
        simp [hi]
      have := ih (Function.update f (c.name_length.toNat + n) (f n + c.population))
        (Function.update g (c.name_length.toNat + n) true) _ (by omega) hp2
      rw [updBelow_succ_of_gt c n f hgt, flagBelow_succ_of_gt c n f g hgt, List.set_set] at this
      simp only [innerLoop, r1, r2, Option.bind_eq_bind, Option.some_bind, hgt, if_true, w1, hp, w2]
      exact this
    · have := ih f g path (by omega) hp
      rw [updBelow_succ_of_le c n f hgt, flagBelow_succ_of_le c n f g hgt] at this
      simp only [innerLoop, r1, r2, Option.bind_eq_bind, Option.some_bind, hgt, if_false]
      exact this

/-- The whole inner loop for a city of non-negative weight, started on a
zero row. -/
theorem innerLoop_full (cap : Nat) (c : City) (i : Nat) (hw : 0 ≤ c.name_length)
    (f : Nat → Int) (path : List (List Bool))
    (hp : path[i]? = some (tab cap (fun _ => false))) :
    innerLoop c i (innerCount cap c) ⟨tab cap f, path⟩
      = some ⟨tab cap (upd c f), path.set i (tab cap (flag c f))⟩ := by
  have hn : c.name_length.toNat + innerCount cap c ≤ cap + 1 ∨
      (innerCount cap c = 0 ∧ cap < c.name_length.toNat) := by
    unfold innerCount
    omega
  have e1 : tab cap (updBelow c (innerCount cap c) f) = tab cap (upd c f) := by
    apply tab_congr
    intro j hj
    simp only [updBelow]
    split_ifs with h
    · rfl
    · have : ¬ c.name_length.toNat ≤ j := by unfold innerCount at h; omega
      simp [upd, flag, this]
  have e2 : tab cap (flagBelow c (innerCount cap c) f (fun _ => false)) = tab cap (flag c f) := by
    apply tab_congr
    intro j hj
    simp only [flagBelow]
    split_ifs with h
    · exact h.2.symm
    · by_cases h3 : j < c.name_length.toNat + innerCount cap c
      · simp only [h3, true_and] at h
        simpa using h
      · have : ¬ c.name_length.toNat ≤ j := by unfold innerCount at h3; omega
        simp [flag, this]
  rcases hn with hn | ⟨h0, hlt⟩
  · rw [innerLoop_spec cap c i hw _ f _ path (fun _ => hn) hp, e1, e2]
  · have := innerLoop_spec cap c i hw 0 f _ path (fun h => absurd rfl h) hp
    rw [h0] at e1 e2 ⊢
    rw [this, e1, e2]

/-- A city of negative weight makes the first iteration of the inner loop read
`dp` beyond its end. -/
theorem innerLoop_neg (cap : Nat) (c : City) (i : Nat) (hw : c.name_length < 0)
    (t : Tables) (hl : t.dp.length = cap + 1) :
    innerLoop c i (innerCount cap c) t = none := by
  obtain ⟨n, hn⟩ : ∃ n, innerCount cap c = n + 1 := by
    refine ⟨innerCount cap c - 1, ?_⟩
    unfold innerCount
    omega
  have hlt : cap < n := by
    unfold innerCount at hn
    omega
  have r1 : rd t.dp (n : Int) = none := by
    simp only [rd, Int.ofNat_zero_le, if_true, Int.toNat_ofNat]
    exact List.getElem?_eq_none (by omega)
  rw [hn]
  simp [innerLoop, r1]

/-! ### The forward pass -/

theorem tblFrom_append (f : Nat → Int) (l₁ l₂ : List City) :
    tblFrom f (l₁ ++ l₂) = tblFrom (tblFrom f l₁) l₂ := by
  induction l₁ generalizing f with
  | nil => rfl
  | cons c l ih => simp [tblFrom, ih]

theorem tbl_concat (l : List City) (c : City) : tbl (l ++ [c]) = upd c (tbl l) := by
  simp [tbl, tblFrom_append, tblFrom]

theorem rowsFrom_length (cap : Nat) (f : Nat → Int) (l : List City) :
    (rowsFrom cap f l).length = l.length := by
  induction l generalizing f with
  | nil => rfl
  | cons c l ih => simp [rowsFrom, ih]

theorem forwardLoop_append (cap : Nat) (l₁ l₂ : List City) (i : Nat) (t : Tables) :
    forwardLoop cap (l₁ ++ l₂) i t
      = (forwardLoop cap l₁ i t).bind (forwardLoop cap l₂ (i + l₁.length)) := by
  induction l₁ generalizing i t with
  | nil => simp [forwardLoop]
  | cons c l ih =>
    simp only [List.cons_append, forwardLoop, Option.bind_eq_bind, List.length_cons]
    cases h : innerLoop c i (innerCount cap c) t with
    | none => simp
    | some t1 =>
      simp only [Option.some_bind]
      have e : i + 1 + l.length = i + (l.length + 1) := by omega
      rw [show l.append l₂ = l ++ l₂ from rfl, ih, e]

/-- The outer loop over cities of non-negative weight, started with the rows
`done` already written and the rows still to write zero. -/
theorem forwardLoop_spec (cap : Nat) (todo : List City) :
    ∀ (f : Nat → Int) (done later : List (List Bool)), (∀ c ∈ todo, 0 ≤ c.name_length) →
      forwardLoop cap todo done.length
          ⟨tab cap f, done ++ (List.replicate todo.length (tab cap (fun _ => false)) ++ later)⟩
        = some ⟨tab cap (tblFrom f todo), done ++ (rowsFrom cap f todo ++ later)⟩ := by
  induction todo with
  | nil =>
    intro f done later _
    simp [forwardLoop, tblFrom, rowsFrom]
  | cons c rest ih =>
    intro f done later hw
    have hc : 0 ≤ c.name_length := hw c (List.mem_cons_self _ _)
    have hp : (done ++ (List.replicate (c :: rest).length (tab cap (fun _ => false)) ++ later))[done.length]?
        = some (tab cap (fun _ => false)) := by
      rw [List.getElem?_append_right (le_refl _)]
      simp [List.replicate_succ]
    have hs : (done ++ (List.replicate (c :: rest).length (tab cap (fun _ => false)) ++ later)).set
        done.length (tab cap (flag c f))
        = (done ++ [tab cap (flag c f)]) ++
            (List.replicate rest.length (tab cap (fun _ => false)) ++ later) := by
      rw [List.set_append_right _ _ (le_refl _)]
      simp [List.replicate_succ]
    have := ih (upd c f) (done ++ [tab cap (flag c f)]) later
      (fun x hx => hw x (List.mem_cons_of_mem _ hx))
    simp only [List.length_append, List.length_singleton] at this
    simp only [forwardLoop, Option.bind_eq_bind]
    rw [innerLoop_full cap c _ hc f _ hp, hs]
    simp only [Option.some_bind]
    rw [this]
    simp [tblFrom, rowsFrom]

/-- The forward pass on cities of non-negative weight. -/
theorem forward_spec (cap : Nat) (cities : List City) (hw : ∀ c ∈ cities, 0 ≤ c.name_length) :
    forwardLoop cap cities 0 (initTables cap cities.length)
      = some ⟨tab cap (tbl cities), rowsFrom cap (fun _ => 0) cities⟩ := by
  have := forwardLoop_spec cap cities (fun _ => 0) [] [] hw
  simpa [initTables, replicate_eq_tab, tbl] using this

theorem exists_first_neg (l : List City) (h : ∃ c ∈ l, c.name_length < 0) :
    ∃ l₁ x l₂, l = l₁ ++ x :: l₂ ∧ (∀ c ∈ l₁, 0 ≤ c.name_length) ∧ x.name_length < 0 := by
  induction l with
  | nil => simp at h
  | cons a l ih =>
    by_cases ha : a.name_length < 0
    · exact ⟨[], a, l, rfl, by simp, ha⟩
    · obtain ⟨c, hc, hlt⟩ := h
      have hcl : c ∈ l := by
        rcases List.mem_cons.mp hc with rfl | h'
        · exact absurd hlt ha
        · exact h'
      obtain ⟨l₁, x, l₂, e, h1, h2⟩ := ih ⟨c, hcl, hlt⟩
      refine ⟨a :: l₁, x, l₂, by simp [e], ?_, h2⟩
      intro y hy
      rcases List.mem_cons.mp hy with rfl | h'
      · omega
      · exact h1 y h'

/-- The forward pass fails as soon as a city has a negative weight. -/
theorem forward_neg (cap : Nat) (cities : List City) (hw : ∃ c ∈ cities, c.name_length < 0) :
    forwardLoop cap cities 0 (initTables cap cities.length) = none := by
  obtain ⟨l₁, x, l₂, e, h1, h2⟩ := exists_first_neg cities hw
  subst e
  have := forwardLoop_spec cap l₁ (fun _ => 0) []
    (List.replicate (x :: l₂).length (tab cap (fun _ => false))) h1
  have e2 : initTables cap (l₁ ++ x :: l₂).length =
      ⟨tab cap (fun _ => 0), [] ++ (List.replicate l₁.length (tab cap (fun _ => false)) ++
        List.replicate (x :: l₂).length (tab cap (fun _ => false)))⟩ := by
    simp [initTables, replicate_eq_tab, List.replicate_add]
  rw [forwardLoop_append, e2]
  simp only [List.length_nil] at this
  rw [this]
  simp only [Option.some_bind, forwardLoop, Option.bind_eq_bind]
  rw [innerLoop_neg cap x _ h2 _ (by simp [tab_length])]
  rfl

/-! ### The scan -/

/-- The scan over `dp[1 .. n]`: it ends on the smallest index holding the
greatest value of `dp[0 .. n]`. -/
theorem scanLoop_spec (dp : List Int) (n : Nat) (hn : n < dp.length) :
    ∃ b m, (List.range' 1 n).foldlM (scanStep dp) 0 = some b ∧ b ≤ n ∧ dp[b]? = some m ∧
      (∀ c x, c ≤ n → dp[c]? = some x → x ≤ m) ∧ (∀ c x, c < b → dp[c]? = some x → x < m) := by
  induction n with
  | zero =>
    refine ⟨0, dp[0], by simp [List.foldlM], le_refl _, by simp [List.getElem?_eq_getElem hn], ?_, ?_⟩
    · intro c x hc hx
      have : c = 0 := by omega
      subst this
      rw [List.getElem?_eq_getElem hn] at hx
      exact le_of_eq (Option.some.inj hx).symm
    · intro c x hc
      omega
  | succ n ih =>
    obtain ⟨b, m, hb, hbn, hm, hall, hlt⟩ := ih (by omega)
    have ha : dp[n + 1]? = some dp[n + 1] := List.getElem?_eq_getElem hn
    have hstep : (List.range' 1 (n + 1)).foldlM (scanStep dp) 0
        = some (if dp[n + 1] > m then n + 1 else b) := by
      rw [List.range'_concat, List.foldlM_append, hb]
      simp [scanStep, ha, hm, Nat.add_comm 1 n]
    by_cases hgt : dp[n + 1] > m
    · refine ⟨n + 1, dp[n + 1], by simpa [hgt] using hstep, le_refl _, ha, ?_, ?_⟩
      · intro c x hc hx
        by_cases hcn : c ≤ n
        · have := hall c x hcn hx
          omega
        · have : c = n + 1 := by omega
          subst this
          rw [ha] at hx
          exact le_of_eq (Option.some.inj hx).symm
      · intro c x hc hx
        have := hall c x (by omega) hx
        omega
    · refine ⟨b, m, by simpa [hgt] using hstep, by omega, hm, ?_, hlt⟩
      intro c x hc hx
      by_cases hcn : c ≤ n
      · exact hall c x hcn hx
      · have : c = n + 1 := by omega
        subst this
        rw [ha] at hx
        have := Option.some.inj hx
        omega

/-- The scan on a table given cell by cell. -/
theorem scanMax_tab (cap : Nat) (f : Nat → Int) :
    ∃ b, scanMax cap (tab cap f) = some b ∧ b ≤ cap ∧
      (∀ c, c ≤ cap → f c ≤ f b) ∧ (∀ c, c < b → f c < f b) := by
  obtain ⟨b, m, hb, hbn, hm, hall, hlt⟩ := scanLoop_spec (tab cap f) cap (by simp [tab_length])
  rw [tab_getElem? _ _ _ hbn] at hm
  have hm := Option.some.inj hm
  subst hm
  refine ⟨b, hb, hbn, ?_, ?_⟩
  · intro c hc
    exact hall c (f c) hc (tab_getElem? _ _ _ hc)
  · intro c hc
    exact hlt c (f c) hc (tab_getElem? _ _ _ (by omega))

/-! ### The traceback -/

theorem rowsFrom_getElem? (cap : Nat) (l : List City) :
    ∀ (f : Nat → Int) (i : Nat) (c : City), l[i]? = some c →
      (rowsFrom cap f l)[i]? = some (tab cap (flag c (tblFrom f (l.take i)))) := by
  induction l with
  | nil =>
    intro f i c h
    simp at h
  | cons a l ih =>
    intro f i c h
    cases i with
    | zero =>
      simp only [List.getElem?_cons_zero, Option.some.injEq] at h
      subst h
      simp [rowsFrom, tblFrom]
    | succ i =>
      simp only [List.getElem?_cons_succ] at h
      simpa [rowsFrom, tblFrom] using ih (upd a f) i c h

/-- The traceback over the first `i` cities saves the indices `sel`. -/
theorem traceback_spec (cap : Nat) (cities : List City)
    (hw : ∀ c ∈ cities, 0 ≤ c.name_length) :
    ∀ (i : Nat), i ≤ cities.length → ∀ (r : Nat), r ≤ cap → ∀ (saved : List Nat),
      traceback cities (rowsFrom cap (fun _ => 0) cities) i (r : Int) saved
        = some (saved ++ sel cities i r) := by
  intro i
  induction i with
  | zero =>
    intro _ r _ saved
    simp [traceback, sel]
  | succ i ih =>
    intro hi r hr saved
    have hlt : i < cities.length := by omega
    have hc : cities[i]? = some cities[i] := List.getElem?_eq_getElem hlt
    have hwc : 0 ≤ cities[i].name_length := hw _ (List.getElem_mem hlt)
    have hrow := rowsFrom_getElem? cap cities (fun _ => 0) i _ hc
    simp only [traceback, sel, hc, Option.bind_eq_bind, Option.some_bind]
    by_cases hge : (r : Int) ≥ cities[i].name_length
    · have hsub : (r : Int) - cities[i].name_length
          = ((r - cities[i].name_length.toNat : Nat) : Int) := by omega
      simp only [hge, if_true, hrow, Option.some_bind, rd_tab _ _ _ hr]
      by_cases hf : flag cities[i] (tblFrom (fun _ => 0) (List.take i cities)) r = true
      · have := ih (by omega) (r - cities[i].name_length.toNat) (by omega) (saved ++ [i])
        simp only [hf, if_true, hsub, tbl]
        rw [this]
        simp
      · simp only [hf, tbl]
        exact ih (by omega) r hr saved
    · have hf : flag cities[i] (tbl (List.take i cities)) r = false := by
        have : ¬ cities[i].name_length.toNat ≤ r := by omega
        simp [flag, this]
      simp only [hge, if_false, hf]
      exact ih (by omega) r hr saved

theorem sel_lt (cities : List City) :
    ∀ (i r k : Nat), k ∈ sel cities i r → k < i := by
  intro i
  induction i with
  | zero =>
    intro r k h
    simp [sel] at h
  | succ i ih =>
    intro r k h
    unfold sel at h
    cases hc : cities[i]? with
    | none => simp [hc] at h
    | some c =>
      simp only [hc] at h
      split_ifs at h
      · rcases List.mem_cons.mp h with rfl | h'
        · omega
        · have := ih _ _ h'
          omega
      · have := ih _ _ h
        omega

/-! ### The output loop -/

theorem mapM_name (cities : List City) (l : List Nat) (h : ∀ k ∈ l, k < cities.length) :
    l.mapM (fun i => (cities[i]?).map City.name)
      = some ((l.filterMap fun i => cities[i]?).map City.name) := by
  induction l with
  | nil => rfl
  | cons a l ih =>
    have ha : a < cities.length := h a (List.mem_cons_self _ _)
    have := ih (fun k hk => h k (List.mem_cons_of_mem _ hk))
    rw [List.mapM_cons, this, List.getElem?_eq_getElem ha]
    simp [List.getElem?_eq_getElem ha]

theorem printed_spec (cities : List City) (saved : List Nat)
    (h : ∀ k ∈ saved, k < cities.length) :
    printed cities saved = some ((chosen cities saved.reverse).map City.name) := by
  unfold printed chosen
  exact mapM_name cities saved.reverse (fun k hk => h k (List.mem_reverse.mp hk))

/-! ### The whole run -/

/-- A run on cities of non-negative weight succeeds, and reports the closed
forms. -/
theorem optimize_spec (cap : Nat) (cities : List City)
    (hw : ∀ c ∈ cities, 0 ≤ c.name_length) :
    ∃ b, b ≤ cap ∧ (∀ c, c ≤ cap → tbl cities c ≤ tbl cities b) ∧
      (∀ c, c < b → tbl cities c < tbl cities b) ∧
      optimize cap cities = some ⟨b, tbl cities b, sel cities cities.length b,
        (chosen cities (sel cities cities.length b).reverse).map City.name⟩ := by
  obtain ⟨b, hb, hbn, hall, hlt⟩ := scanMax_tab cap (tbl cities)
  refine ⟨b, hbn, hall, hlt, ?_⟩
  have htr := traceback_spec cap cities hw cities.length (le_refl _) b hbn []
  have hpr := printed_spec cities (sel cities cities.length b)
    (fun k hk => sel_lt cities _ _ k hk)
  simp only [optimize, forward_spec cap cities hw, Option.bind_eq_bind, Option.some_bind, hb]
  rw [htr]
  simp [tab_getElem? _ _ _ hbn, hpr]

/-! ### The table holds the optimum -/

theorem le_upd (c : City) (f : Nat → Int) (j : Nat) : f j ≤ upd c f j := by
  unfold upd
  split_ifs with h
  · simp only [flag, decide_eq_true_eq] at h
    omega
  · exact le_refl _

theorem take_le_upd (c : City) (f : Nat → Int) (j : Nat) (h : c.name_length.toNat ≤ j) :
    f (j - c.name_length.toNat) + c.population ≤ upd c f j := by
  unfold upd
  split_ifs with h1
  · exact le_refl _
  · simp only [flag, decide_eq_true_eq, h, true_and] at h1
    omega

theorem totalLength_nonneg (s : List City) (hw : ∀ c ∈ s, 0 ≤ c.name_length) :
    0 ≤ totalLength s := by
  induction s with
  | nil => simp [totalLength]
  | cons a s ih =>
    have h1 := hw a (List.mem_cons_self _ _)
    have h2 := ih (fun c hc => hw c (List.mem_cons_of_mem _ hc))
    simp only [totalLength, List.map_cons, List.sum_cons] at h2 ⊢
    omega

theorem totalLength_append (s t : List City) :
    totalLength (s ++ t) = totalLength s + totalLength t := by
  simp [totalLength]

theorem totalPopulation_append (s t : List City) :
    totalPopulation (s ++ t) = totalPopulation s + totalPopulation t := by
  simp [totalPopulation]

/-- No sub-list of `l` that fits in `c` is worth more than cell `c` of the
table after `l`. -/
theorem tbl_upper (l : List City) (hw : ∀ c ∈ l, 0 ≤ c.name_length) :
    ∀ (s : List City) (c : Nat), s.Sublist l → totalLength s ≤ c →
      totalPopulation s ≤ tbl l c := by
  induction l using List.reverseRecOn with
  | nil =>
    intro s c hs _
    have : s = [] := List.sublist_nil.mp hs
    subst this
    simp [totalPopulation, tbl, tblFrom]
  | append_singleton l x ih =>
    intro s c hs hc
    have hwl : ∀ c ∈ l, 0 ≤ c.name_length := fun c hc => hw c (List.mem_append_left _ hc)
    have hwx : 0 ≤ x.name_length := hw x (by simp)
    obtain ⟨s₁, s₂, e, h1, h2⟩ := List.sublist_append_iff.mp hs
    subst e
    rw [tbl_concat]
    rcases List.sublist_cons_iff.mp h2 with h3 | ⟨r, e, h3⟩
    · have : s₂ = [] := List.sublist_nil.mp h3
      subst this
      simp only [List.append_nil] at hc ⊢
      exact le_trans (ih hwl s₁ c h1 hc) (le_upd x _ c)
    · have : r = [] := List.sublist_nil.mp h3
      subst this
      subst e
      have hs1 : 0 ≤ totalLength s₁ :=
        totalLength_nonneg s₁ (fun c hc => hwl c (h1.subset hc))
      rw [totalLength_append] at hc
      rw [totalPopulation_append]
      have hx1 : totalLength [x] = x.name_length := by simp [totalLength]
      have hx2 : totalPopulation [x] = x.population := by simp [totalPopulation]
      rw [hx1] at hc
      rw [hx2]
      have hle : x.name_length.toNat ≤ c := by omega
      have := ih hwl s₁ (c - x.name_length.toNat) h1 (by omega)
      have := take_le_upd x (tbl l) c hle
      omega

/-! ### What the traceback saves -/

theorem chosen_cons (cities : List City) (i : Nat) (s : List Nat) (c : City)
    (h : cities[i]? = some c) : chosen cities (i :: s) = c :: chosen cities s := by
  simp [chosen, List.filterMap_cons, h]

theorem chosen_reverse (cities : List City) (s : List Nat) :
    chosen cities s.reverse = (chosen cities s).reverse := by
  simp [chosen]

theorem take_succ_of_getElem? (cities : List City) (i : Nat) (c : City)
    (h : cities[i]? = some c) : cities.take (i + 1) = cities.take i ++ [c] := by
  rw [List.take_succ, h]
  rfl

/-- The cities saved from `remaining = r` over the first `i` cities are worth
cell `r` of the table after these cities. -/
theorem sel_population (cities : List City) :
    ∀ (i : Nat), i ≤ cities.length → ∀ (r : Nat),
      totalPopulation (chosen cities (sel cities i r)) = tbl (cities.take i) r := by
  intro i
  induction i with
  | zero =>
    intro _ r
    simp [sel, chosen, totalPopulation, tbl, tblFrom]
  | succ i ih =>
    intro hi r
    have hc : cities[i]? = some cities[i] := List.getElem?_eq_getElem (by omega)
    rw [take_succ_of_getElem? cities i _ hc, tbl_concat]
    simp only [sel, hc, upd]
    split_ifs with hf
    · rw [chosen_cons cities i _ _ hc]
      have := ih (by omega) (r - cities[i].name_length.toNat)
      simp only [totalPopulation, List.map_cons, List.sum_cons] at this ⊢
      omega
    · exact ih (by omega) r

/-- The cities saved from `remaining = r` weigh at most `r`. -/
theorem sel_length (cities : List City) (hw : ∀ c ∈ cities, 0 ≤ c.name_length) :
    ∀ (i : Nat), i ≤ cities.length → ∀ (r : Nat),
      totalLength (chosen cities (sel cities i r)) ≤ r := by
  intro i
  induction i with
  | zero =>
    intro _ r
    simp [sel, chosen, totalLength]
  | succ i ih =>
    intro hi r
    have hlt : i < cities.length := by omega
    have hc : cities[i]? = some cities[i] := List.getElem?_eq_getElem hlt
    have hwc : 0 ≤ cities[i].name_length := hw _ (List.getElem_mem hlt)
    simp only [sel, hc]
    split_ifs with hf
    · rw [chosen_cons cities i _ _ hc]
      have := ih (by omega) (r - cities[i].name_length.toNat)
      simp only [flag, decide_eq_true_eq] at hf
      simp only [totalLength, List.map_cons, List.sum_cons] at this ⊢
      omega
    · exact ih (by omega) r

/-- The traceback saves strictly decreasing indices. -/
theorem sel_pairwise (cities : List City) :
    ∀ (i r : Nat), (sel cities i r).Pairwise (fun a b => b < a) := by
  intro i
  induction i with
  | zero =>
    intro r
    simp [sel]
  | succ i ih =>
    intro r
    unfold sel
    cases hc : cities[i]? with
    | none => simp
    | some c =>
      simp only
      split_ifs
      · exact List.pairwise_cons.mpr ⟨fun k hk => sel_lt cities _ _ k hk, ih _⟩
      · exact ih r

/-- The saved cities, in input order, are a sub-list of the cities. -/
theorem sel_sublist (cities : List City) :
    ∀ (i : Nat), i ≤ cities.length → ∀ (r : Nat),
      (chosen cities (sel cities i r).reverse).Sublist (cities.take i) := by
  intro i
  induction i with
  | zero =>
    intro _ r
    simp [sel, chosen]
  | succ i ih =>
    intro hi r
    have hc : cities[i]? = some cities[i] := List.getElem?_eq_getElem (by omega)
    rw [take_succ_of_getElem? cities i _ hc]
    simp only [sel, hc]
    split_ifs with hf
    · rw [chosen_reverse, chosen_cons cities i _ _ hc, List.reverse_cons, ← chosen_reverse]
      exact List.Sublist.append (ih (by omega) _) (List.Sublist.refl _)
    · exact (ih (by omega) r).trans (List.sublist_append_left _ _)

theorem totalLength_reverse (s : List City) : totalLength s.reverse = totalLength s := by
  simp [totalLength, List.sum_reverse]

theorem totalPopulation_reverse (s : List City) :
    totalPopulation s.reverse = totalPopulation s := by
  simp [totalPopulation, List.sum_reverse]

theorem sel_mem_of_free (cities : List City) (i : Nat) (c : City)
    (hc : cities[i]? = some c) (h0 : c.name_length = 0) (hp : 0 < c.population) :
    ∀ (k : Nat), i < k → k ≤ cities.length → ∀ (r : Nat), i ∈ sel cities k r := by
  intro k
  induction k with
  | zero =>
    intro h
    omega
  | succ k ih =>
    intro hik hk r
    have hck : cities[k]? = some cities[k] := List.getElem?_eq_getElem (by omega)
    simp only [sel, hck]
    by_cases e : i = k
    · subst e
      rw [hck] at hc
      have hc := Option.some.inj hc
      have hf : flag cities[i] (tbl (List.take i cities)) r = true := by
        rw [hc]
        simp [flag, h0, hp]
      simp [hf]
    · have := fun r => ih (by omega) (by omega) r
      split_ifs
      · exact List.mem_cons_of_mem _ (this _)
      · exact this _

theorem sel_zero_iff (cities : List City) (hw : ∀ c ∈ cities, 0 ≤ c.name_length) :
    ∀ (k : Nat), k ≤ cities.length → ∀ (i : Nat),
      i ∈ sel cities k 0 ↔
        i < k ∧ ∃ c, cities[i]? = some c ∧ c.name_length = 0 ∧ 0 < c.population := by
  intro k
  induction k with
  | zero =>
    intro _ i
    simp [sel]
  | succ k ih =>
    intro hk i
    have hlt : k < cities.length := by omega
    have hck : cities[k]? = some cities[k] := List.getElem?_eq_getElem hlt
    have hwc : 0 ≤ cities[k].name_length := hw _ (List.getElem_mem hlt)
    have ih := ih (by omega) i
    simp only [sel, hck]
    by_cases hf : flag cities[k] (tbl (List.take k cities)) 0 = true
    · have hf' := hf
      simp only [flag, decide_eq_true_eq] at hf'
      have h0 : cities[k].name_length = 0 := by omega
      have hp : 0 < cities[k].population := by
        have := hf'.2
        simp only [Nat.zero_sub] at this
        omega
      simp only [hf, if_true, List.mem_cons, Nat.zero_sub]
      constructor
      · rintro (e | h)
        · subst e
          exact ⟨by omega, _, hck, h0, hp⟩
        · obtain ⟨h1, h2⟩ := ih.mp h
          exact ⟨by omega, h2⟩
      · rintro ⟨h1, h2⟩
        by_cases e : i = k
        · exact Or.inl e
        · exact Or.inr (ih.mpr ⟨by omega, h2⟩)
    · simp only [hf]
      constructor
      · intro h
        obtain ⟨h1, h2⟩ := ih.mp h
        exact ⟨by omega, h2⟩
      · rintro ⟨h1, c, h2, h3, h4⟩
        by_cases e : i = k
        · subst e
          rw [hck] at h2
          have h2 := Option.some.inj h2
          exfalso
          apply hf
          rw [h2]
          simp [flag, h3, h4]
        · exact ih.mpr ⟨by omega, c, h2, h3, h4⟩

theorem optimize_neg (cap : Nat) (cities : List City) (hw : ∃ c ∈ cities, c.name_length < 0) :
    optimize cap cities = none := by
  simp [optimize, forward_neg cap cities hw]

/-! ### Skipping a city that never fits -/

theorem flag_congr_le (cap : Nat) (c : City) (f g : Nat → Int)
    (h : ∀ j, j ≤ cap → f j = g j) (r : Nat) (hr : r ≤ cap) : flag c f r = flag c g r := by
  simp only [flag, h r hr, h (r - c.name_length.toNat) (by omega)]

theorem upd_congr_le (cap : Nat) (c : City) (f g : Nat → Int)
    (h : ∀ j, j ≤ cap → f j = g j) (r : Nat) (hr : r ≤ cap) : upd c f r = upd c g r := by
  simp only [upd, flag_congr_le cap c f g h r hr, h r hr, h (r - c.name_length.toNat) (by omega)]

theorem tblFrom_congr_le (cap : Nat) (l : List City) :
    ∀ (f g : Nat → Int), (∀ j, j ≤ cap → f j = g j) →
      ∀ r, r ≤ cap → tblFrom f l r = tblFrom g l r := by
  induction l with
  | nil =>
    intro f g h r hr
    exact h r hr
  | cons c l ih =>
    intro f g h r hr
    exact ih (upd c f) (upd c g) (fun j hj => upd_congr_le cap c f g h j hj) r hr

theorem flag_of_lt (cap : Nat) (x : City) (hx : (cap : Int) < x.name_length)
    (f : Nat → Int) (r : Nat) (hr : r ≤ cap) : flag x f r = false := by
  have : ¬ x.name_length.toNat ≤ r := by omega
  simp [flag, this]

theorem tbl_skip (cap : Nat) (l₁ l₂ : List City) (x : City) (hx : (cap : Int) < x.name_length) :
    ∀ r, r ≤ cap → tbl (l₁ ++ x :: l₂) r = tbl (l₁ ++ l₂) r := by
  intro r hr
  simp only [tbl, tblFrom_append, tblFrom]
  apply tblFrom_congr_le cap l₂ _ _ _ r hr
  intro j hj
  simp [upd, flag_of_lt cap x hx _ j hj]

theorem selC_skip (cap : Nat) (l₁ : List City) (x : City) (hx : (cap : Int) < x.name_length)
    (l₂ : List City) :
    ∀ r, r ≤ cap → selC (l₁ ++ x :: l₂).reverse r = selC (l₁ ++ l₂).reverse r := by
  induction l₂ using List.reverseRecOn with
  | nil =>
    intro r hr
    simp [selC, flag_of_lt cap x hx _ r hr]
  | append_singleton l c ih =>
    intro r hr
    have e1 : (l₁ ++ x :: (l ++ [c])).reverse = c :: (l₁ ++ x :: l).reverse := by simp
    have e2 : (l₁ ++ (l ++ [c])).reverse = c :: (l₁ ++ l).reverse := by simp
    rw [e1, e2]
    simp only [selC, List.reverse_reverse]
    rw [flag_congr_le cap c _ _ (tbl_skip cap l₁ l x hx) r hr, ih r hr,
      ih (r - c.name_length.toNat) (by omega)]

theorem chosen_sel (cities : List City) :
    ∀ (i : Nat), i ≤ cities.length → ∀ (r : Nat),
      chosen cities (sel cities i r) = selC (cities.take i).reverse r := by
  intro i
  induction i with
  | zero =>
    intro _ r
    simp [sel, chosen, selC]
  | succ i ih =>
    intro hi r
    have hc : cities[i]? = some cities[i] := List.getElem?_eq_getElem (by omega)
    have e : (cities.take i ++ [cities[i]]).reverse = cities[i] :: (cities.take i).reverse := by
      simp
    rw [take_succ_of_getElem? cities i _ hc, e]
    simp only [selC, List.reverse_reverse, sel, hc]
    by_cases hf : flag cities[i] (tbl (List.take i cities)) r = true
    · simp only [hf, if_true]
      rw [chosen_cons cities i _ _ hc, ih (by omega)]
    · simp only [hf]
      exact ih (by omega) r

/-! ### The claims -/

/-- C1 (optimality): on cities of non-negative weight (whatever the values)
and for every capacity, the run succeeds and the total it reports,
`dp[best_char_count]`, is the greatest total value of a sub-list of the cities,
each city used at most once, whose weights sum to at most the capacity. -/
theorem C1_optimality (cap : Nat) (cities : List City)
    (hw : ∀ c ∈ cities, 0 ≤ c.name_length) :
    ∃ r, optimize cap cities = some r ∧ IsGreatest (feasibleValues cap cities) r.best_value := by
  obtain ⟨b, hb, hall, _, hopt⟩ := optimize_spec cap cities hw
  refine ⟨_, hopt, ?_, ?_⟩
  · refine ⟨chosen cities (sel cities cities.length b).reverse, ?_, ?_, ?_⟩
    · simpa using sel_sublist cities cities.length (le_refl _) b
    · rw [chosen_reverse, totalLength_reverse]
      have := sel_length cities hw cities.length (le_refl _) b
      have hb' : (b : Int) ≤ (cap : Int) := by exact_mod_cast hb
      exact le_trans this hb'
    · rw [chosen_reverse, totalPopulation_reverse]
      simpa using sel_population cities cities.length (le_refl _) b
  · rintro v ⟨s, hs, hl, rfl⟩
    exact le_trans (tbl_upper cities hw s cap hs hl) (hall cap (le_refl _))

theorem C1_optimality_witness :
    (∀ c ∈ scenario, 0 ≤ c.name_length) ∧
      ∃ r, optimize 5 scenario = some r ∧ IsGreatest (feasibleValues 5 scenario) r.best_value :=
  ⟨by decide, C1_optimality 5 scenario (by decide)⟩

/-- C2 (value consistency): on cities of non-negative weight and for every
capacity, the run succeeds, every saved index is the index of a city, and the
values of the saved cities sum to the reported total `dp[best_char_count]`. -/
theorem C2_value_consistency (cap : Nat) (cities : List City)
    (hw : ∀ c ∈ cities, 0 ≤ c.name_length) :
    ∃ r, optimize cap cities = some r ∧ (∀ i ∈ r.saved, i < cities.length) ∧
      totalPopulation (chosen cities r.saved) = r.best_value := by
  obtain ⟨b, _, _, _, hopt⟩ := optimize_spec cap cities hw
  refine ⟨_, hopt, fun i hi => sel_lt cities _ _ i hi, ?_⟩
  simpa using sel_population cities cities.length (le_refl _) b

theorem C2_value_consistency_witness :
    (∀ c ∈ scenario, 0 ≤ c.name_length) ∧
      ∃ r, optimize 5 scenario = some r ∧ (∀ i ∈ r.saved, i < scenario.length) ∧
        totalPopulation (chosen scenario r.saved) = r.best_value :=
  ⟨by decide, C2_value_consistency 5 scenario (by decide)⟩

/-- C3 (feasibility): on cities of non-negative weight and for every capacity,
the run succeeds and the weights of the saved cities sum to at most the winning
index `best_char_count`, which is at most the capacity. -/
theorem C3_feasibility (cap : Nat) (cities : List City)
    (hw : ∀ c ∈ cities, 0 ≤ c.name_length) :
    ∃ r, optimize cap cities = some r ∧
      totalLength (chosen cities r.saved) ≤ r.best_char_count ∧ r.best_char_count ≤ cap ∧
      totalLength (chosen cities r.saved) ≤ cap := by
  obtain ⟨b, hb, _, _, hopt⟩ := optimize_spec cap cities hw
  have h := sel_length cities hw cities.length (le_refl _) b
  have hb' : (b : Int) ≤ (cap : Int) := by exact_mod_cast hb
  exact ⟨_, hopt, h, hb, le_trans h hb'⟩

theorem C3_feasibility_witness :
    (∀ c ∈ scenario, 0 ≤ c.name_length) ∧
      ∃ r, optimize 5 scenario = some r ∧
        totalLength (chosen scenario r.saved) ≤ r.best_char_count ∧ r.best_char_count ≤ 5 ∧
        totalLength (chosen scenario r.saved) ≤ (5 : Nat) :=
  ⟨by decide, C3_feasibility 5 scenario (by decide)⟩

/-- C4 (concrete scenario): on A (weight 3, value 10), B (weight 4, value 40),
C (weight 2, value 30) with capacity 5 the run reports the total 40, reached at
index 4, and prints the single name B (the city of index 1). -/
theorem C4_scenario : optimize 5 scenario = some ⟨4, 40, [1], ["B"]⟩ := by
  decide

/-- C5 (tie-break): on every table `dp` of `cap + 1` cells the scan succeeds and
ends on an index `b` of the table whose cell is at least every cell of the table
and strictly greater than every cell before `b`: the smallest index of the
maximum. -/
theorem C5_tie_break (cap : Nat) (dp : List Int) (hl : dp.length = cap + 1) :
    ∃ (b : Nat) (m : Int), scanMax cap dp = some b ∧ b ≤ cap ∧ dp[b]? = some m ∧
      (∀ (c : Nat) (x : Int), dp[c]? = some x → x ≤ m) ∧
      (∀ (c : Nat) (x : Int), c < b → dp[c]? = some x → x < m) := by
  obtain ⟨b, m, hb, hbn, hm, hall, hlt⟩ := scanLoop_spec dp cap (by omega)
  refine ⟨b, m, hb, hbn, hm, ?_, hlt⟩
  intro c x hx
  have hc : c < dp.length := by
    by_contra hcon
    rw [List.getElem?_eq_none (by omega)] at hx
    exact Option.noConfusion hx
  exact hall c x (by omega) hx

theorem C5_tie_break_witness :
    [0, 0, 30, 30, 40, 40].length = 5 + 1 ∧
      ∃ (b : Nat) (m : Int), scanMax 5 [0, 0, 30, 30, 40, 40] = some b ∧ b ≤ 5 ∧
        ([0, 0, 30, 30, 40, 40] : List Int)[b]? = some m ∧
        (∀ (c : Nat) (x : Int), ([0, 0, 30, 30, 40, 40] : List Int)[c]? = some x → x ≤ m) ∧
        (∀ (c : Nat) (x : Int), c < b → ([0, 0, 30, 30, 40, 40] : List Int)[c]? = some x → x < m) :=
  ⟨by decide, C5_tie_break 5 [0, 0, 30, 30, 40, 40] (by decide)⟩

/-- C9 (empty input): for every capacity the run on no city succeeds, reports
the total 0 at index 0, saves nothing and prints nothing. -/
theorem C9_empty_input (cap : Nat) : optimize cap [] = some ⟨0, 0, [], []⟩ := by
  obtain ⟨b, _, _, hlt, hopt⟩ := optimize_spec cap [] (by simp)
  have hb : b = 0 := by
    by_contra hne
    have := hlt 0 (by omega)
    simp [tbl, tblFrom] at this
  subst hb
  simpa [tbl, tblFrom, sel, chosen] using hopt

/-- C6 (overweight cities are ignored): for every capacity, every city `x`
whose weight is strictly greater than the capacity and every list of cities
around it, the inner loop for `x` leaves `dp` and `path` as they are, and the
run on the list with `x` shows the same result (winning index, total and names
printed) as the run on the list without `x`; the run with `x` succeeds whenever
the other cities have non-negative weights. -/
theorem C6_overweight_ignored (cap : Nat) (l₁ l₂ : List City) (x : City)
    (hx : (cap : Int) < x.name_length) :
    (∀ (i : Nat) (t : Tables), innerLoop x i (innerCount cap x) t = some t) ∧
    (optimize cap (l₁ ++ x :: l₂)).map Result.shown
      = (optimize cap (l₁ ++ l₂)).map Result.shown ∧
    ((∀ c ∈ l₁ ++ l₂, 0 ≤ c.name_length) → ∃ r, optimize cap (l₁ ++ x :: l₂) = some r) := by
  have hcount : innerCount cap x = 0 := by
    unfold innerCount
    omega
  have hw' : (∀ c ∈ l₁ ++ l₂, 0 ≤ c.name_length) → ∀ c ∈ l₁ ++ x :: l₂, 0 ≤ c.name_length := by
    intro hw c hc
    rcases List.mem_append.mp hc with h | h
    · exact hw c (List.mem_append_left _ h)
    · rcases List.mem_cons.mp h with rfl | h
      · omega
      · exact hw c (List.mem_append_right _ h)
  refine ⟨?_, ?_, ?_⟩
  · intro i t
    rw [hcount]
    rfl
  · by_cases hw : ∀ c ∈ l₁ ++ l₂, 0 ≤ c.name_length
    · obtain ⟨b', hb', hall', hlt', hopt'⟩ := optimize_spec cap (l₁ ++ x :: l₂) (hw' hw)
      obtain ⟨b, hb, hall, hlt, hopt⟩ := optimize_spec cap (l₁ ++ l₂) hw
      have hE := tbl_skip cap l₁ l₂ x hx
      have hbb : b' = b := by
        rcases Nat.lt_trichotomy b' b with h | h | h
        · have h1 := hlt b' h
          have h2 := hall' b hb
          rw [hE b hb, hE b' hb'] at h2
          omega
        · exact h
        · have h1 := hlt' b h
          have h2 := hall b' hb'
          rw [hE b hb, hE b' hb'] at h1
          omega
      subst hbb
      rw [hopt', hopt]
      simp only [Option.map_some', Result.shown, Option.some.injEq, Prod.mk.injEq, true_and]
      refine ⟨hE b' hb', ?_⟩
      rw [chosen_reverse, chosen_reverse, chosen_sel _ _ (le_refl _), chosen_sel _ _ (le_refl _),
        List.take_length, List.take_length, selC_skip cap l₁ x hx l₂ b' hb']
    · have hneg : ∃ c ∈ l₁ ++ l₂, c.name_length < 0 := by
        by_contra hcon
        apply hw
        intro c hc
        by_contra hlt
        exact hcon ⟨c, hc, by omega⟩
      have hneg' : ∃ c ∈ l₁ ++ x :: l₂, c.name_length < 0 := by
        obtain ⟨c, hc, hlt⟩ := hneg
        refine ⟨c, ?_, hlt⟩
        rcases List.mem_append.mp hc with h | h
        · exact List.mem_append_left _ h
        · exact List.mem_append_right _ (List.mem_cons_of_mem _ h)
      rw [optimize_neg cap _ hneg, optimize_neg cap _ hneg']
  · intro hw
    obtain ⟨b', _, _, _, hopt'⟩ := optimize_spec cap (l₁ ++ x :: l₂) (hw' hw)
    exact ⟨_, hopt'⟩

theorem C6_overweight_ignored_witness :
    ((5 : Nat) : Int) < (⟨"X", 99, 6⟩ : City).name_length ∧
    ((∀ (i : Nat) (t : Tables),
        innerLoop ⟨"X", 99, 6⟩ i (innerCount 5 ⟨"X", 99, 6⟩) t = some t) ∧
      (optimize 5 ([⟨"A", 10, 3⟩] ++ ⟨"X", 99, 6⟩ :: [⟨"B", 40, 4⟩, ⟨"C", 30, 2⟩])).map Result.shown
        = (optimize 5 ([⟨"A", 10, 3⟩] ++ [⟨"B", 40, 4⟩, ⟨"C", 30, 2⟩])).map Result.shown ∧
      ((∀ c ∈ [(⟨"A", 10, 3⟩ : City)] ++ [⟨"B", 40, 4⟩, ⟨"C", 30, 2⟩], 0 ≤ c.name_length) →
        ∃ r, optimize 5 ([⟨"A", 10, 3⟩] ++ ⟨"X", 99, 6⟩ :: [⟨"B", 40, 4⟩, ⟨"C", 30, 2⟩]) = some r)) :=
  ⟨by decide, C6_overweight_ignored 5 [⟨"A", 10, 3⟩] [⟨"B", 40, 4⟩, ⟨"C", 30, 2⟩] ⟨"X", 99, 6⟩
    (by decide)⟩

/-- C7 (zero-weight cities): on cities of non-negative weight and for every
capacity, the run succeeds and the index of every city of weight 0 and strictly
positive value is saved by the traceback. -/
theorem C7_zero_weight (cap : Nat) (cities : List City)
    (hw : ∀ c ∈ cities, 0 ≤ c.name_length) :
    ∃ r, optimize cap cities = some r ∧
      ∀ (i : Nat) (c : City), cities[i]? = some c → c.name_length = 0 → 0 < c.population →
        i ∈ r.saved := by
  obtain ⟨b, _, _, _, hopt⟩ := optimize_spec cap cities hw
  refine ⟨_, hopt, ?_⟩
  intro i c hc h0 hp
  have hi : i < cities.length := by
    by_contra hcon
    rw [List.getElem?_eq_none (by omega)] at hc
    exact Option.noConfusion hc
  exact sel_mem_of_free cities i c hc h0 hp cities.length hi (le_refl _) b

theorem C7_zero_weight_witness :
    (∀ c ∈ [(⟨"A", 10, 3⟩ : City), ⟨"", 7, 0⟩], 0 ≤ c.name_length) ∧
      ∃ r, optimize 5 [⟨"A", 10, 3⟩, ⟨"", 7, 0⟩] = some r ∧
        ∀ (i : Nat) (c : City), [(⟨"A", 10, 3⟩ : City), ⟨"", 7, 0⟩][i]? = some c →
          c.name_length = 0 → 0 < c.population → i ∈ r.saved :=
  ⟨by decide, C7_zero_weight 5 [⟨"A", 10, 3⟩, ⟨"", 7, 0⟩] (by decide)⟩

/-- C8 (zero capacity): on cities of non-negative weight the run with capacity 0
succeeds and saves exactly the indices of the cities of weight 0 and strictly
positive value (so no city of positive weight); when there is no such city it
reports the total 0, saves nothing and prints nothing. -/
theorem C8_zero_capacity (cities : List City) (hw : ∀ c ∈ cities, 0 ≤ c.name_length) :
    ∃ r, optimize 0 cities = some r ∧
      (∀ i : Nat, i ∈ r.saved ↔
        ∃ c, cities[i]? = some c ∧ c.name_length = 0 ∧ 0 < c.population) ∧
      ((∀ c ∈ cities, ¬ (c.name_length = 0 ∧ 0 < c.population)) →
        r.best_value = 0 ∧ r.saved = [] ∧ r.names = []) := by
  obtain ⟨b, hb, _, _, hopt⟩ := optimize_spec 0 cities hw
  have hb0 : b = 0 := by omega
  subst hb0
  have hiff : ∀ i : Nat, i ∈ sel cities cities.length 0 ↔
      ∃ c, cities[i]? = some c ∧ c.name_length = 0 ∧ 0 < c.population := by
    intro i
    rw [sel_zero_iff cities hw cities.length (le_refl _) i]
    constructor
    · exact fun h => h.2
    · rintro ⟨c, hc, h⟩
      refine ⟨?_, c, hc, h⟩
      by_contra hcon
      rw [List.getElem?_eq_none (by omega)] at hc
      exact Option.noConfusion hc
  refine ⟨_, hopt, hiff, ?_⟩
  intro hnone
  have hnil : sel cities cities.length 0 = [] := by
    apply List.eq_nil_iff_forall_not_mem.mpr
    intro i hi
    obtain ⟨c, hc, h⟩ := (hiff i).mp hi
    exact hnone c (List.getElem?_mem hc) h
  have hv := sel_population cities cities.length (le_refl _) 0
  rw [hnil] at hv
  simp only [List.take_length] at hv
  refine ⟨?_, hnil, ?_⟩
  · rw [← hv]
    simp [chosen, totalPopulation]
  · simp [hnil, chosen]

theorem C8_zero_capacity_witness :
    (∀ c ∈ [(⟨"A", 10, 3⟩ : City), ⟨"", 7, 0⟩], 0 ≤ c.name_length) ∧
      ∃ r, optimize 0 [⟨"A", 10, 3⟩, ⟨"", 7, 0⟩] = some r ∧
        (∀ i : Nat, i ∈ r.saved ↔
          ∃ c, [(⟨"A", 10, 3⟩ : City), ⟨"", 7, 0⟩][i]? = some c ∧ c.name_length = 0 ∧
            0 < c.population) ∧
        ((∀ c ∈ [(⟨"A", 10, 3⟩ : City), ⟨"", 7, 0⟩], ¬ (c.name_length = 0 ∧ 0 < c.population)) →
          r.best_value = 0 ∧ r.saved = [] ∧ r.names = []) :=
  ⟨by decide, C8_zero_capacity [⟨"A", 10, 3⟩, ⟨"", 7, 0⟩] (by decide)⟩

/-- C10 (output order, at-most-once use): for every list of cities and every
capacity, whenever the run yields a result the indices it saved, read in the
order of the output loop, are strictly increasing indices of cities (so no
position occurs twice), the names printed are the names of these cities in that
order, and they form a sub-list of the input names; and the run does yield a
result when the weights are non-negative. -/
theorem C10_output_order (cap : Nat) (cities : List City) :
    (∀ r, optimize cap cities = some r →
      r.saved.reverse.Pairwise (fun a b => a < b) ∧ (∀ i ∈ r.saved, i < cities.length) ∧
      r.names = (chosen cities r.saved.reverse).map City.name ∧
      r.names.Sublist (cities.map City.name)) ∧
    ((∀ c ∈ cities, 0 ≤ c.name_length) → ∃ r, optimize cap cities = some r) := by
  refine ⟨?_, ?_⟩
  · intro r hr
    by_cases hw : ∀ c ∈ cities, 0 ≤ c.name_length
    · obtain ⟨b, _, _, _, hopt⟩ := optimize_spec cap cities hw
      rw [hopt] at hr
      have hr := Option.some.inj hr
      subst hr
      refine ⟨?_, fun i hi => sel_lt cities _ _ i hi, rfl, ?_⟩
      · exact List.pairwise_reverse.mpr (sel_pairwise cities _ _)
      · have := sel_sublist cities cities.length (le_refl _) b
        rw [List.take_length] at this
        exact this.map City.name
    · have hneg : ∃ c ∈ cities, c.name_length < 0 := by
        by_contra hcon
        apply hw
        intro c hc
        by_contra hlt
        exact hcon ⟨c, hc, by omega⟩
      rw [optimize_neg cap _ hneg] at hr
      exact Option.noConfusion hr
  · intro hw
    obtain ⟨b, _, _, _, hopt⟩ := optimize_spec cap cities hw
    exact ⟨_, hopt⟩

theorem C10_output_order_witness :
    optimize 5 scenario = some ⟨4, 40, [1], ["B"]⟩ ∧
      ([1] : List Nat).reverse.Pairwise (fun a b => a < b) ∧
      (∀ i ∈ ([1] : List Nat), i < scenario.length) ∧
      ["B"] = (chosen scenario ([1] : List Nat).reverse).map City.name ∧
      (["B"] : List String).Sublist (scenario.map City.name) :=
  ⟨by decide, (C10_output_order 5 scenario).1 ⟨4, 40, [1], ["B"]⟩ (by decide)⟩

/-! ### The table after a prefix of the cities -/

theorem tbl_mem_feasible (l : List City) (hw : ∀ c ∈ l, 0 ≤ c.name_length) (c : Nat) :
    tbl l c ∈ feasibleValues c l := by
  refine ⟨chosen l (sel l l.length c).reverse, ?_, ?_, ?_⟩
  · simpa using sel_sublist l l.length (le_refl _) c
  · rw [chosen_reverse, totalLength_reverse]
    exact sel_length l hw l.length (le_refl _) c
  · rw [chosen_reverse, totalPopulation_reverse]
    simpa using sel_population l l.length (le_refl _) c

theorem tbl_isGreatest (l : List City) (hw : ∀ c ∈ l, 0 ≤ c.name_length) (c : Nat) :
    IsGreatest (feasibleValues c l) (tbl l c) := by
  refine ⟨tbl_mem_feasible l hw c, ?_⟩
  rintro v ⟨s, hs, hl, rfl⟩
  exact tbl_upper l hw s c hs hl

/-- The outer loop stopped after the first `i` cities. -/
theorem forward_take (cap : Nat) (cities : List City) (hw : ∀ c ∈ cities, 0 ≤ c.name_length)
    (i : Nat) (hi : i ≤ cities.length) :
    forwardLoop cap (cities.take i) 0 (initTables cap cities.length)
      = some ⟨tab cap (tbl (cities.take i)),
          rowsFrom cap (fun _ => 0) (cities.take i) ++
            List.replicate (cities.length - i) (tab cap (fun _ => false))⟩ := by
  have hlen : (cities.take i).length = i := by simp [hi]
  have := forwardLoop_spec cap (cities.take i) (fun _ => 0) []
    (List.replicate (cities.length - i) (tab cap (fun _ => false)))
    (fun c hc => hw c (List.mem_of_mem_take hc))
  have e : initTables cap cities.length =
      ⟨tab cap (fun _ => 0), [] ++ (List.replicate (cities.take i).length (tab cap (fun _ => false)) ++
        List.replicate (cities.length - i) (tab cap (fun _ => false)))⟩ := by
    rw [hlen, List.nil_append, ← List.replicate_add, Nat.add_sub_cancel' hi]
    simp [initTables, replicate_eq_tab]
  rw [e]
  simpa [tbl] using this

theorem upd_mono (c : City) (f : Nat → Int) (hf : ∀ a b, a ≤ b → f a ≤ f b) :
    ∀ a b, a ≤ b → upd c f a ≤ upd c f b := by
  intro a b hab
  by_cases h : flag c f a = true
  · have h' := h
    simp only [flag, decide_eq_true_eq] at h'
    have h1 : c.name_length.toNat ≤ b := by omega
    have h2 := take_le_upd c f b h1
    have h3 := hf (a - c.name_length.toNat) (b - c.name_length.toNat) (by omega)
    have e : upd c f a = f (a - c.name_length.toNat) + c.population := by simp [upd, h]
    rw [e]
    omega
  · have h2 := le_upd c f b
    have h3 := hf a b hab
    have e : upd c f a = f a := by simp [upd, h]
    rw [e]
    omega

theorem tblFrom_mono (l : List City) :
    ∀ (f : Nat → Int), (∀ a b, a ≤ b → f a ≤ f b) → ∀ a b, a ≤ b → tblFrom f l a ≤ tblFrom f l b := by
  induction l with
  | nil =>
    intro f hf
    exact hf
  | cons c l ih =>
    intro f hf
    exact ih (upd c f) (upd_mono c f hf)

theorem tbl_mono (l : List City) : ∀ a b, a ≤ b → tbl l a ≤ tbl l b :=
  tblFrom_mono l (fun _ => 0) (fun _ _ _ => le_refl _)

theorem le_tblFrom (l : List City) : ∀ (f : Nat → Int) (j : Nat), f j ≤ tblFrom f l j := by
  induction l with
  | nil =>
    intro f j
    exact le_refl _
  | cons c l ih =>
    intro f j
    exact le_trans (le_upd c f j) (ih (upd c f) j)

theorem tbl_nonneg (l : List City) (j : Nat) : 0 ≤ tbl l j :=
  le_tblFrom l (fun _ => 0) j

/-- A city improves a cell of a monotone table only if its value is positive. -/
theorem pos_of_flag (c : City) (f : Nat → Int) (hf : ∀ a b, a ≤ b → f a ≤ f b) (j : Nat)
    (h : flag c f j = true) : 0 < c.population := by
  simp only [flag, decide_eq_true_eq] at h
  have := hf (j - c.name_length.toNat) j (by omega)
  omega

theorem flag_of_mem_sel (cities : List City) :
    ∀ (i r k : Nat), k ∈ sel cities i r →
      ∃ (c : City) (r' : Nat), cities[k]? = some c ∧ flag c (tbl (cities.take k)) r' = true := by
  intro i
  induction i with
  | zero =>
    intro r k h
    simp [sel] at h
  | succ i ih =>
    intro r k h
    unfold sel at h
    cases hc : cities[i]? with
    | none => simp [hc] at h
    | some c =>
      simp only [hc] at h
      by_cases hf : flag c (tbl (List.take i cities)) r = true
      · simp only [hf, if_true] at h
        rcases List.mem_cons.mp h with rfl | h'
        · exact ⟨c, r, hc, hf⟩
        · exact ih _ _ h'
      · simp only [hf] at h
        exact ih _ _ h

/-! ### Further claims on the optimizer -/

/-- C13 (prefix invariant): on cities of non-negative weight (whatever the
values), for every `i` up to the number of cities the outer loop over the first
`i` cities succeeds, and then each cell `dp[c]`, `c` from 0 to the capacity,
holds the greatest total value of a sub-list of the first `i` cities (each used
at most once) whose weights sum to at most `c`. -/
theorem C13_prefix_invariant (cap : Nat) (cities : List City)
    (hw : ∀ c ∈ cities, 0 ≤ c.name_length) (i : Nat) (hi : i ≤ cities.length) :
    ∃ t, forwardLoop cap (cities.take i) 0 (initTables cap cities.length) = some t ∧
      ∀ c : Nat, c ≤ cap →
        ∃ v, t.dp[c]? = some v ∧ IsGreatest (feasibleValues c (cities.take i)) v := by
  refine ⟨_, forward_take cap cities hw i hi, ?_⟩
  intro c hc
  exact ⟨_, tab_getElem? _ _ _ hc,
    tbl_isGreatest _ (fun x hx => hw x (List.mem_of_mem_take hx)) c⟩

theorem C13_prefix_invariant_witness :
    (∀ c ∈ scenario, 0 ≤ c.name_length) ∧ 2 ≤ scenario.length ∧
      ∃ t, forwardLoop 5 (scenario.take 2) 0 (initTables 5 scenario.length) = some t ∧
        ∀ c : Nat, c ≤ 5 →
          ∃ v, t.dp[c]? = some v ∧ IsGreatest (feasibleValues c (scenario.take 2)) v :=
  ⟨by decide, by decide, C13_prefix_invariant 5 scenario (by decide) 2 (by decide)⟩

/-- C18 (items of no value): on cities of non-negative weight and for every
capacity the forward pass and the run succeed, and a city whose value is zero
or negative has no flag set in its row of `path` and is not saved by the
traceback; it is skipped, not rejected. -/
theorem C18_worthless_skipped (cap : Nat) (cities : List City)
    (hw : ∀ c ∈ cities, 0 ≤ c.name_length) :
    ∃ t r, forwardLoop cap cities 0 (initTables cap cities.length) = some t ∧
      optimize cap cities = some r ∧
      ∀ (i : Nat) (c : City), cities[i]? = some c → c.population ≤ 0 →
        (∃ row, t.path[i]? = some row ∧ row.length = cap + 1 ∧ ∀ b ∈ row, b = false) ∧
          i ∉ r.saved := by
  obtain ⟨b, _, _, _, hopt⟩ := optimize_spec cap cities hw
  refine ⟨_, _, forward_spec cap cities hw, hopt, ?_⟩
  intro i c hc hp
  refine ⟨⟨_, rowsFrom_getElem? cap cities _ i c hc, tab_length _ _, ?_⟩, ?_⟩
  · intro x hx
    obtain ⟨j, _, rfl⟩ := List.mem_map.mp hx
    by_contra hne
    have := pos_of_flag c _ (tblFrom_mono _ _ (fun _ _ _ => le_refl _)) j (by simpa using hne)
    omega
  · intro hmem
    obtain ⟨c', r', hc', hf⟩ := flag_of_mem_sel cities _ _ i hmem
    rw [hc] at hc'
    have hc' := Option.some.inj hc'
    subst hc'
    have := pos_of_flag c _ (tbl_mono _) r' hf
    omega

theorem C18_worthless_skipped_witness :
    (∀ c ∈ [(⟨"A", 10, 3⟩ : City), ⟨"N", -7, 1⟩, ⟨"Z", 0, 2⟩], 0 ≤ c.name_length) ∧
      ∃ t r, forwardLoop 5 [(⟨"A", 10, 3⟩ : City), ⟨"N", -7, 1⟩, ⟨"Z", 0, 2⟩] 0
          (initTables 5 [(⟨"A", 10, 3⟩ : City), ⟨"N", -7, 1⟩, ⟨"Z", 0, 2⟩].length) = some t ∧
        optimize 5 [(⟨"A", 10, 3⟩ : City), ⟨"N", -7, 1⟩, ⟨"Z", 0, 2⟩] = some r ∧
        ∀ (i : Nat) (c : City),
          [(⟨"A", 10, 3⟩ : City), ⟨"N", -7, 1⟩, ⟨"Z", 0, 2⟩][i]? = some c → c.population ≤ 0 →
          (∃ row, t.path[i]? = some row ∧ row.length = 5 + 1 ∧ ∀ b ∈ row, b = false) ∧
            i ∉ r.saved :=
  ⟨by decide, C18_worthless_skipped 5 [⟨"A", 10, 3⟩, ⟨"N", -7, 1⟩, ⟨"Z", 0, 2⟩] (by decide)⟩

/-- C19 (monotone table): on cities of non-negative weight, after the outer
loop has processed any number `i` of them the table `dp` has its `cap + 1`
cells, each cell is at most the next one and no cell is negative; and the total
the run reports is `dp[cap]` of the final table. -/
theorem C19_monotone (cap : Nat) (cities : List City)
    (hw : ∀ c ∈ cities, 0 ≤ c.name_length) :
    (∀ i : Nat, i ≤ cities.length →
      ∃ t, forwardLoop cap (cities.take i) 0 (initTables cap cities.length) = some t ∧
        t.dp.length = cap + 1 ∧
        (∀ (c : Nat) (x y : Int), t.dp[c]? = some x → t.dp[c + 1]? = some y → x ≤ y) ∧
        (∀ x ∈ t.dp, 0 ≤ x)) ∧
    (∃ t r, forwardLoop cap cities 0 (initTables cap cities.length) = some t ∧
      optimize cap cities = some r ∧ t.dp[cap]? = some r.best_value) := by
  refine ⟨?_, ?_⟩
  · intro i hi
    refine ⟨_, forward_take cap cities hw i hi, tab_length _ _, ?_, ?_⟩
    · intro c x y hx hy
      have hc : c + 1 ≤ cap := by
        by_contra hcon
        rw [List.getElem?_eq_none (by simp [tab_length]; omega)] at hy
        exact Option.noConfusion hy
      rw [tab_getElem? _ _ _ (by omega)] at hx
      rw [tab_getElem? _ _ _ hc] at hy
      have hx := Option.some.inj hx
      have hy := Option.some.inj hy
      subst hx
      subst hy
      exact tbl_mono _ c (c + 1) (by omega)
    · intro x hx
      obtain ⟨j, _, rfl⟩ := List.mem_map.mp hx
      exact tbl_nonneg _ j
  · obtain ⟨b, hb, hall, _, hopt⟩ := optimize_spec cap cities hw
    refine ⟨_, _, forward_spec cap cities hw, hopt, ?_⟩
    rw [tab_getElem? _ _ _ (le_refl _)]
    have h1 := hall cap (le_refl _)
    have h2 := tbl_mono cities b cap hb
    simp only [Option.some.injEq]
    omega

theorem C19_monotone_witness :
    (∀ c ∈ scenario, 0 ≤ c.name_length) ∧
    ((∀ i : Nat, i ≤ scenario.length →
      ∃ t, forwardLoop 5 (scenario.take i) 0 (initTables 5 scenario.length) = some t ∧
        t.dp.length = 5 + 1 ∧
        (∀ (c : Nat) (x y : Int), t.dp[c]? = some x → t.dp[c + 1]? = some y → x ≤ y) ∧
        (∀ x ∈ t.dp, 0 ≤ x)) ∧
    (∃ t r, forwardLoop 5 scenario 0 (initTables 5 scenario.length) = some t ∧
      optimize 5 scenario = some r ∧ t.dp[5]? = some r.best_value)) :=
  ⟨by decide, C19_monotone 5 scenario (by decide)⟩

/-! ### Validation, capacity and subscripts -/

theorem traceback_congr (cities : List City) (p₁ p₂ : List (List Bool)) :
    ∀ (k : Nat), (∀ i, i < k → p₁[i]? = p₂[i]?) → ∀ (r : Int) (saved : List Nat),
      traceback cities p₁ k r saved = traceback cities p₂ k r saved := by
  intro k
  induction k with
  | zero =>
    intro _ r saved
    rfl
  | succ k ih =>
    intro h r saved
    have ih := ih (fun i hi => h i (by omega))
    simp only [traceback, h k (by omega), ih]

theorem totalLength_take_le (s : List City) (hw : ∀ c ∈ s, 0 ≤ c.name_length) (k : Nat) :
    0 ≤ totalLength (s.take k) ∧ totalLength (s.take k) ≤ totalLength s := by
  have h1 := totalLength_nonneg (s.take k) (fun c hc => hw c (List.mem_of_mem_take hc))
  have h2 := totalLength_nonneg (s.drop k) (fun c hc => hw c (List.mem_of_mem_drop hc))
  have h3 := totalLength_append (s.take k) (s.drop k)
  rw [List.take_append_drop] at h3
  omega

theorem chosen_take (cities : List City) (saved : List Nat) (h : ∀ i ∈ saved, i < cities.length)
    (k : Nat) : chosen cities (saved.take k) = (chosen cities saved).take k := by
  induction saved generalizing k with
  | nil => simp [chosen]
  | cons a l ih =>
    have ha : a < cities.length := h a (List.mem_cons_self _ _)
    have hc : cities[a]? = some cities[a] := List.getElem?_eq_getElem ha
    cases k with
    | zero => simp [chosen]
    | succ k =>
      rw [List.take_succ_cons, chosen_cons _ _ _ _ hc, chosen_cons _ _ _ _ hc,
        List.take_succ_cons, ih (fun i hi => h i (List.mem_cons_of_mem _ hi))]

/-- C11 fails on the code: a city of negative value is not rejected, the run
on it returns the total 0 and an empty selection. -/
theorem C11_counterexample :
    (∃ c ∈ [(⟨"N", -7, 1⟩ : City)], c.name_length < 0 ∨ c.population < 0) ∧
      optimize 5 [⟨"N", -7, 1⟩] = some ⟨0, 0, [], []⟩ := by
  decide

/-- C11 (as amended): the optimizer has no `InvalidItem` signal for values.
On every list of cities of non-negative weight, whatever the values and so
also when some value is negative, the run returns a result, and every city it
saves has a strictly positive value: a city of negative value is skipped, not
rejected. -/
theorem C11_no_validation (cap : Nat) (cities : List City)
    (hw : ∀ c ∈ cities, 0 ≤ c.name_length) :
    ∃ r, optimize cap cities = some r ∧
      ∀ (i : Nat) (c : City), i ∈ r.saved → cities[i]? = some c → 0 < c.population := by
  obtain ⟨b, _, _, _, hopt⟩ := optimize_spec cap cities hw
  refine ⟨_, hopt, ?_⟩
  intro i c hmem hc
  obtain ⟨c', r', hc', hf⟩ := flag_of_mem_sel cities _ _ i hmem
  rw [hc] at hc'
  have hc' := Option.some.inj hc'
  subst hc'
  exact pos_of_flag c _ (tbl_mono _) r' hf

theorem C11_no_validation_witness :
    (∀ c ∈ [(⟨"A", 10, 3⟩ : City), ⟨"N", -7, 1⟩], 0 ≤ c.name_length) ∧
      ∃ r, optimize 5 [⟨"A", 10, 3⟩, ⟨"N", -7, 1⟩] = some r ∧
        ∀ (i : Nat) (c : City), i ∈ r.saved →
          [(⟨"A", 10, 3⟩ : City), ⟨"N", -7, 1⟩][i]? = some c → 0 < c.population :=
  ⟨by decide, C11_no_validation 5 [⟨"A", 10, 3⟩, ⟨"N", -7, 1⟩] (by decide)⟩

/-- C20 (subscripts in bounds): on at most `MAX_CITIES` cities of non-negative
weight (some possibly heavier than the capacity), with `path` declared with
`MAX_CITIES` rows: in every iteration of the inner loop `j` and `j - weight` lie
between 0 and the capacity; the forward pass, the scan, the traceback and the
read of `dp[best_char_count]` all succeed, so no checked subscript leaves its
array; `remaining`, which is `best_char_count` less the weights of the cities
saved so far, stays between 0 and the capacity; and the result is the one of the
run with one row of `path` per city. -/
theorem C20_in_bounds (cap : Nat) (cities : List City) (hn : cities.length ≤ MAX_CITIES)
    (hw : ∀ c ∈ cities, 0 ≤ c.name_length) :
    (∀ c ∈ cities, ∀ n : Nat, n < innerCount cap c →
      0 ≤ c.name_length + n - c.name_length ∧ c.name_length + n - c.name_length ≤ cap ∧
        0 ≤ c.name_length + n ∧ c.name_length + n ≤ cap) ∧
    ∃ (t : Tables) (b : Nat) (saved : List Nat) (v : Int) (names : List String),
      forwardLoop cap cities 0 (initTables cap MAX_CITIES) = some t ∧
      scanMax cap t.dp = some b ∧
      traceback cities t.path cities.length b [] = some saved ∧
      t.dp[b]? = some v ∧ printed cities saved = some names ∧
      (∀ k : Nat, 0 ≤ (b : Int) - totalLength (chosen cities (saved.take k)) ∧
        (b : Int) - totalLength (chosen cities (saved.take k)) ≤ cap) ∧
      optimize cap cities = some ⟨b, v, saved, names⟩ := by
  refine ⟨?_, ?_⟩
  · intro c hc n hlt
    have := hw c hc
    unfold innerCount at hlt
    omega
  · obtain ⟨b, hb, hall, hlt, hopt⟩ := optimize_spec cap cities hw
    have hscan : scanMax cap (tab cap (tbl cities)) = some b := by
      obtain ⟨b', hb', hbn', hall', hlt'⟩ := scanMax_tab cap (tbl cities)
      have : b' = b := by
        rcases Nat.lt_trichotomy b' b with h | h | h
        · have := hlt b' h
          have := hall' b hb
          omega
        · exact h
        · have := hlt' b h
          have := hall b' hbn'
          omega
      rw [← this]
      exact hb'
    have hfw := forwardLoop_spec cap cities (fun _ => 0) []
      (List.replicate (MAX_CITIES - cities.length) (tab cap (fun _ => false))) hw
    have e : initTables cap MAX_CITIES =
        ⟨tab cap (fun _ => 0), [] ++ (List.replicate cities.length (tab cap (fun _ => false)) ++
          List.replicate (MAX_CITIES - cities.length) (tab cap (fun _ => false)))⟩ := by
      rw [List.nil_append, ← List.replicate_add, Nat.add_sub_cancel' hn]
      simp [initTables, replicate_eq_tab]
    have hsel : ∀ i ∈ sel cities cities.length b, i < cities.length :=
      fun i hi => sel_lt cities _ _ i hi
    refine ⟨⟨tab cap (tbl cities), [] ++ (rowsFrom cap (fun _ => 0) cities ++
        List.replicate (MAX_CITIES - cities.length) (tab cap (fun _ => false)))⟩,
      b, sel cities cities.length b, tbl cities b, _, ?_, hscan, ?_,
      tab_getElem? _ _ _ hb, printed_spec cities _ hsel, ?_, hopt⟩
    · rw [e]
      exact hfw
    · have := traceback_spec cap cities hw cities.length (le_refl _) b hb []
      simp only [List.nil_append] at this ⊢
      rw [← this]
      apply traceback_congr
      intro i hi
      exact List.getElem?_append_left (by rw [rowsFrom_length]; exact hi)
    · intro k
      rw [chosen_take cities _ hsel k]
      have hch : ∀ c ∈ chosen cities (sel cities cities.length b), 0 ≤ c.name_length := by
        intro c hc
        obtain ⟨i, _, hi⟩ := List.mem_filterMap.mp hc
        exact hw c (List.getElem?_mem hi)
      have h1 := totalLength_take_le _ hch k
      have h2 := sel_length cities hw cities.length (le_refl _) b
      have h3 : (b : Int) ≤ (cap : Int) := by exact_mod_cast hb
      omega

theorem C20_in_bounds_witness :
    scenario.length ≤ MAX_CITIES ∧ (∀ c ∈ scenario, 0 ≤ c.name_length) ∧
    ((∀ c ∈ scenario, ∀ n : Nat, n < innerCount 5 c →
      0 ≤ c.name_length + n - c.name_length ∧ c.name_length + n - c.name_length ≤ (5 : Nat) ∧
        0 ≤ c.name_length + n ∧ c.name_length + n ≤ (5 : Nat)) ∧
    ∃ (t : Tables) (b : Nat) (saved : List Nat) (v : Int) (names : List String),
      forwardLoop 5 scenario 0 (initTables 5 MAX_CITIES) = some t ∧
      scanMax 5 t.dp = some b ∧
      traceback scenario t.path scenario.length b [] = some saved ∧
      t.dp[b]? = some v ∧ printed scenario saved = some names ∧
      (∀ k : Nat, 0 ≤ (b : Int) - totalLength (chosen scenario (saved.take k)) ∧
        (b : Int) - totalLength (chosen scenario (saved.take k)) ≤ (5 : Nat)) ∧
      optimize 5 scenario = some ⟨b, v, saved, names⟩) :=
  ⟨by decide, by decide, C20_in_bounds 5 scenario (by decide) (by decide)⟩

/-! ### The forward pass in `long long` -/

theorem rd_natCast {α : Type} (a : List α) (k : Nat) : rd a (k : Int) = a[k]? := by
  simp [rd]

theorem wr_natCast {α : Type} (a a' : List α) (k : Nat) (v : α) (h : wr a (k : Int) v = some a') :
    a' = a.set k v := by
  simp only [wr, Int.toNat_ofNat] at h
  split_ifs at h
  exact (Option.some.inj h).symm

/-- The last `n` iterations of the inner loop for a city of non-negative weight
and value between `-2^31` and `2^31`, on a table whose cells not yet visited lie
between `-B` and `B`: no sum overflows and the cells stay within `B + 2^31`. -/
theorem innerLoopLL_eq (c : City) (i : Nat) (B : Int) (hw : 0 ≤ c.name_length)
    (hp : inInt c.population) (hB : B + 2 ^ 31 < 2 ^ 63) :
    ∀ (n : Nat) (t : Tables), Bounded (B + 2 ^ 31) t.dp →
      (∀ (k : Nat) (x : Int), k < c.name_length.toNat + n → t.dp[k]? = some x → -B ≤ x ∧ x ≤ B) →
      innerLoopLL c i n t = innerLoop c i n t ∧
        ∀ t', innerLoop c i n t = some t' →
          Bounded (B + 2 ^ 31) t'.dp ∧ t'.dp.length = t.dp.length := by
  intro n
  induction n with
  | zero =>
    intro t hall _
    refine ⟨rfl, ?_⟩
    intro t' ht
    simp only [innerLoop, Option.some.injEq] at ht
    subst ht
    exact ⟨hall, rfl⟩
  | succ n ih =>
    intro t hall hlow
    have hj : c.name_length + (n : Int) = ((c.name_length.toNat + n : Nat) : Int) := by
      rw [Nat.cast_add, Int.toNat_of_nonneg hw]
    have hsub : c.name_length + (n : Int) - c.name_length = (n : Int) := by ring
    have r1 : rd t.dp (c.name_length + (n : Int) - c.name_length) = t.dp[n]? := by
      rw [hsub, rd_natCast]
    have r2 : rd t.dp (c.name_length + (n : Int)) = t.dp[c.name_length.toNat + n]? := by
      rw [hj, rd_natCast]
    simp only [innerLoopLL, innerLoop, r1, r2, Option.bind_eq_bind]
    cases h1 : t.dp[n]? with
    | none => simp
    | some prev =>
      cases h2 : t.dp[c.name_length.toNat + n]? with
      | none => simp
      | some cur =>
        have hprev := hlow n prev (by omega) h1
        have hin : inLongLong (prev + c.population) := by
          unfold inLongLong
          unfold inInt at hp
          omega
        simp only [Option.some_bind, addLongLong, hin, if_true]
        by_cases hgt : prev + c.population > cur
        · simp only [hgt, if_true]
          cases h3 : wr t.dp (c.name_length + (n : Int)) (prev + c.population) with
          | none => simp
          | some dp' =>
            cases h4 : t.path[i]? with
            | none => simp
            | some row =>
              simp only [Option.some_bind]
              cases h5 : wr row (c.name_length + (n : Int)) true with
              | none => simp
              | some row' =>
                simp only [Option.some_bind]
                rw [hj] at h3
                have hdp := wr_natCast _ _ _ _ h3
                have hget : ∀ k : Nat, dp'[k]? =
                    if c.name_length.toNat + n = k then
                      (if k < t.dp.length then some (prev + c.population) else none)
                    else t.dp[k]? := by
                  intro k
                  rw [hdp, List.getElem?_set]
                  by_cases e : c.name_length.toNat + n = k
                  · subst e
                    simp
                  · simp [e]
                have hlen : dp'.length = t.dp.length := by rw [hdp, List.length_set]
                have hall' : Bounded (B + 2 ^ 31) dp' := by
                  intro k x hx
                  rw [hget k] at hx
                  by_cases e : c.name_length.toNat + n = k
                  · simp only [e, if_true] at hx
                    split_ifs at hx
                    have := Option.some.inj hx
                    unfold inInt at hp
                    omega
                  · simp only [e, if_false] at hx
                    exact hall k x hx
                have hlow' : ∀ (k : Nat) (x : Int), k < c.name_length.toNat + n →
                    dp'[k]? = some x → -B ≤ x ∧ x ≤ B := by
                  intro k x hk hx
                  rw [hget k] at hx
                  have e : ¬ c.name_length.toNat + n = k := by omega
                  simp only [e, if_false] at hx
                  exact hlow k x (by omega) hx
                have := ih ⟨dp', t.path.set i row'⟩ hall' hlow'
                refine ⟨this.1, ?_⟩
                intro t' ht'
                have := this.2 t' ht'
                exact ⟨this.1, by rw [this.2, hlen]⟩
        · simp only [hgt, if_false]
          exact ih t hall (fun k x hk => hlow k x (by omega))

theorem innerLoopLL_neg (cap : Nat) (c : City) (i : Nat) (hw : c.name_length < 0)
    (t : Tables) (hl : t.dp.length = cap + 1) :
    innerLoopLL c i (innerCount cap c) t = none := by
  obtain ⟨n, hn⟩ : ∃ n, innerCount cap c = n + 1 := by
    refine ⟨innerCount cap c - 1, ?_⟩
    unfold innerCount
    omega
  have hlt : cap < n := by
    unfold innerCount at hn
    omega
  have r1 : rd t.dp (n : Int) = none := by
    simp only [rd, Int.ofNat_zero_le, if_true, Int.toNat_ofNat]
    exact List.getElem?_eq_none (by omega)
  rw [hn]
  simp [innerLoopLL, r1]

/-- The outer loop on cities whose values are `int`, from a table of `cap + 1`
cells within `k * 2^31`: computing in `long long` changes nothing as long as
`(k + number of cities) * 2^31` fits. -/
theorem forwardLoopLL_eq (cap : Nat) (l : List City) :
    ∀ (i : Nat) (t : Tables) (k : Nat), t.dp.length = cap + 1 →
      Bounded ((k : Int) * 2 ^ 31) t.dp → (∀ c ∈ l, inInt c.population) →
      ((k + l.length : Nat) : Int) * 2 ^ 31 < 2 ^ 63 →
      forwardLoopLL cap l i t = forwardLoop cap l i t ∧
        ∀ t', forwardLoop cap l i t = some t' →
          Bounded (((k + l.length : Nat) : Int) * 2 ^ 31) t'.dp ∧ t'.dp.length = cap + 1 := by
  induction l with
  | nil =>
    intro i t k hl hb _ _
    refine ⟨rfl, ?_⟩
    intro t' ht
    simp only [forwardLoop, Option.some.injEq] at ht
    subst ht
    exact ⟨by simpa using hb, hl⟩
  | cons c rest ih =>
    intro i t k hl hb hv hk
    have hc : inInt c.population := hv c (List.mem_cons_self _ _)
    have hrest : ∀ x ∈ rest, inInt x.population := fun x hx => hv x (List.mem_cons_of_mem _ hx)
    simp only [List.length_cons, Nat.cast_add, Nat.cast_one] at hk
    simp only [forwardLoopLL, forwardLoop, Option.bind_eq_bind, List.length_cons]
    by_cases hw : 0 ≤ c.name_length
    · have hBk : (k : Int) * 2 ^ 31 + 2 ^ 31 < 2 ^ 63 := by
        have : (0 : Int) ≤ (rest.length : Int) := Int.ofNat_zero_le _
        omega
      have hall : Bounded ((k : Int) * 2 ^ 31 + 2 ^ 31) t.dp := by
        intro j x hx
        have := hb j x hx
        omega
      obtain ⟨heq, hres⟩ := innerLoopLL_eq c i ((k : Int) * 2 ^ 31) hw hc hBk
        (innerCount cap c) t hall (fun j x _ hx => hb j x hx)
      rw [heq]
      cases h1 : innerLoop c i (innerCount cap c) t with
      | none => simp
      | some t1 =>
        obtain ⟨hb1, hl1⟩ := hres t1 h1
        have hb1' : Bounded (((k + 1 : Nat) : Int) * 2 ^ 31) t1.dp := by
          intro j x hx
          have := hb1 j x hx
          simp only [Nat.cast_add, Nat.cast_one]
          omega
        have := ih (i + 1) t1 (k + 1) (by rw [hl1, hl]) hb1' hrest (by
          simp only [Nat.cast_add, Nat.cast_one]
          omega)
        simp only [Option.some_bind]
        have e : k + 1 + rest.length = k + (rest.length + 1) := by omega
        rw [e] at this
        exact this
    · rw [innerLoopLL_neg cap c i (by omega) t hl, innerLoop_neg cap c i (by omega) t hl]
      simp

/-- C14 (no overflow of the accumulator): on at most `MAX_CITIES` cities whose
values are `int`, the forward pass with every candidate `new_pop` computed in
`long long` (a sum outside the type being undefined) is the forward pass in
exact integers; every cell of the table it ends with is a `long long`; and on
non-negative weights it does end with a table, so no candidate overflowed. -/
theorem C14_no_overflow (cap : Nat) (cities : List City) (hn : cities.length ≤ MAX_CITIES)
    (hv : ∀ c ∈ cities, inInt c.population) :
    forwardLoopLL cap cities 0 (initTables cap cities.length)
      = forwardLoop cap cities 0 (initTables cap cities.length) ∧
    (∀ t, forwardLoop cap cities 0 (initTables cap cities.length) = some t →
      ∀ x ∈ t.dp, inLongLong x) ∧
    ((∀ c ∈ cities, 0 ≤ c.name_length) →
      ∃ t, forwardLoopLL cap cities 0 (initTables cap cities.length) = some t) := by
  have hn' : ((0 + cities.length : Nat) : Int) ≤ 100 := by
    unfold MAX_CITIES at hn
    omega
  have h0 : Bounded (((0 : Nat) : Int) * 2 ^ 31) (initTables cap cities.length).dp := by
    intro k x hx
    simp only [initTables, List.getElem?_replicate] at hx
    split_ifs at hx
    have := Option.some.inj hx
    omega
  obtain ⟨heq, hres⟩ := forwardLoopLL_eq cap cities 0 (initTables cap cities.length) 0
    (by simp [initTables]) h0 hv (by omega)
  refine ⟨heq, ?_, ?_⟩
  · intro t ht x hx
    obtain ⟨k, hk⟩ := List.mem_iff_getElem?.mp hx
    have := (hres t ht).1 k x hk
    unfold inLongLong
    omega
  · intro hw
    rw [heq]
    exact ⟨_, forward_spec cap cities hw⟩

theorem C14_no_overflow_witness :
    [(⟨"A", 2147483647, 3⟩ : City), ⟨"B", -2147483648, 4⟩].length ≤ MAX_CITIES ∧
    (∀ c ∈ [(⟨"A", 2147483647, 3⟩ : City), ⟨"B", -2147483648, 4⟩], inInt c.population) ∧
    (forwardLoopLL 5 [⟨"A", 2147483647, 3⟩, ⟨"B", -2147483648, 4⟩] 0
        (initTables 5 [(⟨"A", 2147483647, 3⟩ : City), ⟨"B", -2147483648, 4⟩].length)
      = forwardLoop 5 [⟨"A", 2147483647, 3⟩, ⟨"B", -2147483648, 4⟩] 0
        (initTables 5 [(⟨"A", 2147483647, 3⟩ : City), ⟨"B", -2147483648, 4⟩].length) ∧
    (∀ t, forwardLoop 5 [⟨"A", 2147483647, 3⟩, ⟨"B", -2147483648, 4⟩] 0
        (initTables 5 [(⟨"A", 2147483647, 3⟩ : City), ⟨"B", -2147483648, 4⟩].length) = some t →
      ∀ x ∈ t.dp, inLongLong x) ∧
    ((∀ c ∈ [(⟨"A", 2147483647, 3⟩ : City), ⟨"B", -2147483648, 4⟩], 0 ≤ c.name_length) →
      ∃ t, forwardLoopLL 5 [⟨"A", 2147483647, 3⟩, ⟨"B", -2147483648, 4⟩] 0
        (initTables 5 [(⟨"A", 2147483647, 3⟩ : City), ⟨"B", -2147483648, 4⟩].length) = some t)) :=
  ⟨by decide, by decide,
    C14_no_overflow 5 [⟨"A", 2147483647, 3⟩, ⟨"B", -2147483648, 4⟩] (by decide) (by decide)⟩

end SaveOurPeople

namespace CityList

/-! ### Insertion in the search tree -/

theorem insert_bst_latitude_eq {K : Type} [LinearOrder K] (t : BSTNode K) (city : City K) :
    insert_bst_latitude t city = insertBy City.latitude t city := by
  induction t with
  | null => rfl
  | node c left right ihl ihr => simp only [insert_bst_latitude, insertBy, ihl, ihr]

theorem insert_bst_longitude_eq {K : Type} [LinearOrder K] (t : BSTNode K) (city : City K) :
    insert_bst_longitude t city = insertBy City.longitude t city := by
  induction t with
  | null => rfl
  | node c left right ihl ihr => simp only [insert_bst_longitude, insertBy, ihl, ihr]

theorem toList_insertBy {K : Type} [LinearOrder K] (key : City K → K) (t : BSTNode K)
    (city : City K) : (insertBy key t city).toList.Perm (city :: t.toList) := by
  induction t with
  | null => simp [insertBy, BSTNode.toList]
  | node c left right ihl ihr =>
    simp only [insertBy]
    split_ifs
    · simp only [BSTNode.toList]
      exact (ihl.append_right _).trans (by simp)
    · simp only [BSTNode.toList]
      have h1 : (left.toList ++ c :: (insertBy key right city).toList).Perm
          (left.toList ++ c :: city :: right.toList) :=
        List.Perm.append_left _ (List.Perm.cons _ ihr)
      have h2 : (left.toList ++ c :: city :: right.toList).Perm
          (city :: (left.toList ++ c :: right.toList)) := by
        have : left.toList ++ c :: city :: right.toList
            = (left.toList ++ [c]) ++ city :: right.toList := by simp
        rw [this]
        exact List.perm_middle.trans (by simp)
      exact h1.trans h2

theorem mem_insertBy {K : Type} [LinearOrder K] (key : City K → K) (t : BSTNode K)
    (city x : City K) (h : x ∈ (insertBy key t city).toList) : x = city ∨ x ∈ t.toList := by
  have := (toList_insertBy key t city).mem_iff.mp h
  exact List.mem_cons.mp this

theorem isBST_insertBy {K : Type} [LinearOrder K] (key : City K → K) (t : BSTNode K)
    (city : City K) (h : IsBST key t) : IsBST key (insertBy key t city) := by
  induction t with
  | null => simp [insertBy, IsBST, BSTNode.toList]
  | node c left right ihl ihr =>
    obtain ⟨h1, h2, h3, h4⟩ := h
    simp only [insertBy]
    split_ifs with hlt
    · refine ⟨?_, h2, ihl h3, h4⟩
      intro x hx
      rcases mem_insertBy key left city x hx with rfl | hx
      · exact hlt
      · exact h1 x hx
    · refine ⟨h1, ?_, h3, ihr h4⟩
      intro x hx
      rcases mem_insertBy key right city x hx with rfl | hx
      · exact not_lt.mp hlt
      · exact h2 x hx

/-- The cities of a search tree, left to right, are in non-decreasing order
of the key. -/
theorem pairwise_toList {K : Type} [LinearOrder K] (key : City K → K) (t : BSTNode K)
    (h : IsBST key t) : t.toList.Pairwise (fun a b => key a ≤ key b) := by
  induction t with
  | null => simp [BSTNode.toList]
  | node c left right ihl ihr =>
    obtain ⟨h1, h2, h3, h4⟩ := h
    simp only [BSTNode.toList]
    rw [List.pairwise_append]
    refine ⟨ihl h3, List.pairwise_cons.mpr ⟨h2, ihr h4⟩, ?_⟩
    intro a ha b hb
    rcases List.mem_cons.mp hb with rfl | hb
    · exact le_of_lt (h1 a ha)
    · exact le_trans (le_of_lt (h1 a ha)) (h2 b hb)

theorem foldl_insertBy {K : Type} [LinearOrder K] (key : City K → K) (cities : List (City K)) :
    ∀ t : BSTNode K, IsBST key t →
      IsBST key (cities.foldl (insertBy key) t) ∧
        (cities.foldl (insertBy key) t).toList.Perm (t.toList ++ cities) := by
  induction cities with
  | nil =>
    intro t h
    simpa using h
  | cons c cs ih =>
    intro t h
    obtain ⟨h1, h2⟩ := ih (insertBy key t c) (isBST_insertBy key t c h)
    refine ⟨h1, ?_⟩
    simp only [List.foldl_cons]
    refine h2.trans ?_
    refine ((toList_insertBy key t c).append_right cs).trans ?_
    simp only [List.cons_append]
    exact List.perm_middle.symm

theorem build_latitude_eq {K : Type} [LinearOrder K] (cities : List (City K)) :
    build_latitude cities = cities.foldl (insertBy City.latitude) .null := by
  unfold build_latitude
  congr 1
  funext t c
  exact insert_bst_latitude_eq t c

/-! ### The traversal -/

/-- The traversal of `t` started at the index `pre.length` of an array
`pre ++ mid ++ post`, `mid` having as many cells as `t` has cities: it replaces
`mid` by the cities of `t` and advances the index past them. -/
theorem inorder_traversal_spec {K : Type} (t : BSTNode K) :
    ∀ (pre mid post : List (City K)), mid.length = t.toList.length →
      inorder_traversal t (pre ++ (mid ++ post), pre.length)
        = some (pre ++ (t.toList ++ post), pre.length + mid.length) := by
  induction t with
  | null =>
    intro pre mid post h
    have : mid = [] := List.length_eq_zero.mp (by simpa [BSTNode.toList] using h)
    subst this
    simp [inorder_traversal, BSTNode.toList]
  | node c left right ihl ihr =>
    intro pre mid post h
    simp only [BSTNode.toList, List.length_append, List.length_cons] at h
    obtain ⟨m₁, rest, e1, hm1⟩ : ∃ m₁ rest, mid = m₁ ++ rest ∧ m₁.length = left.toList.length :=
      ⟨mid.take left.toList.length, mid.drop left.toList.length, by simp,
        by rw [List.length_take]; omega⟩
    subst e1
    rw [List.length_append] at h
    obtain ⟨x, m₂, e2⟩ : ∃ x m₂, rest = x :: m₂ := by
      cases rest with
      | nil =>
        simp only [List.length_nil] at h
        omega
      | cons x m₂ => exact ⟨x, m₂, rfl⟩
    subst e2
    have hm2 : m₂.length = right.toList.length := by
      simp only [List.length_cons] at h
      omega
    have hl := ihl pre m₁ (x :: m₂ ++ post) hm1
    have hr := ihr (pre ++ (left.toList ++ [c])) m₂ post hm2
    have e3 : pre ++ ((m₁ ++ x :: m₂) ++ post) = pre ++ (m₁ ++ (x :: m₂ ++ post)) := by simp
    have hlen : pre.length + m₁.length
        < (pre ++ (left.toList ++ (x :: m₂ ++ post))).length := by
      simp only [List.length_append, List.length_cons]
      omega
    have hset : (pre ++ (left.toList ++ (x :: m₂ ++ post))).set (pre.length + m₁.length) c
        = (pre ++ (left.toList ++ [c])) ++ (m₂ ++ post) := by
      have e4 : pre ++ (left.toList ++ (x :: m₂ ++ post))
          = (pre ++ left.toList) ++ x :: (m₂ ++ post) := by simp
      have e5 : pre.length + m₁.length = (pre ++ left.toList).length := by
        rw [List.length_append, hm1]
      rw [e4, e5, List.set_append_right _ _ (le_refl _)]
      simp
    have e6 : (pre ++ (left.toList ++ [c])).length = pre.length + m₁.length + 1 := by
      simp only [List.length_append, List.length_singleton, hm1]
      omega
    rw [e6] at hr
    simp only [inorder_traversal, Option.bind_eq_bind]
    rw [e3, hl]
    simp only [Option.some_bind, hlen, if_true, hset]
    rw [hr]
    simp only [BSTNode.toList, List.length_append, List.length_cons, List.append_assoc,
      List.singleton_append, List.cons_append, Option.some.injEq, Prod.mk.injEq, true_and]
    exact ⟨by simp, by omega⟩

/-! ### The linear search -/

theorem linear_search_loop_spec {K : Type} (array : List (City K)) (target : String) :
    ∀ (n i : Nat), i + n = array.length →
      (∀ (k : Nat) (c : City K), k < i → array[k]? = some c → c.name ≠ target) →
      ∃ r : Int, linear_search_loop array target n i = some r ∧
        ((r = -1 ∧ ∀ c ∈ array, c.name ≠ target) ∨
          ∃ j : Nat, r = (j : Int) ∧ j < array.length ∧
            (∃ c, array[j]? = some c ∧ c.name = target) ∧
            ∀ (k : Nat) (c : City K), k < j → array[k]? = some c → c.name ≠ target) := by
  intro n
  induction n with
  | zero =>
    intro i hi hbefore
    refine ⟨-1, rfl, Or.inl ⟨rfl, ?_⟩⟩
    intro c hc
    obtain ⟨k, hk⟩ := List.mem_iff_getElem?.mp hc
    have hlt : k < array.length := by
      by_contra hcon
      rw [List.getElem?_eq_none (by omega)] at hk
      exact Option.noConfusion hk
    exact hbefore k c (by omega) hk
  | succ n ih =>
    intro i hi hbefore
    have hlt : i < array.length := by omega
    have hc : array[i]? = some array[i] := List.getElem?_eq_getElem hlt
    simp only [linear_search_loop, hc, Option.bind_eq_bind, Option.some_bind]
    by_cases hname : array[i].name = target
    · refine ⟨(i : Int), by simp [hname], Or.inr ⟨i, rfl, hlt, ⟨_, hc, hname⟩, hbefore⟩⟩
    · simp only [hname, if_false]
      apply ih (i + 1) (by omega)
      intro k c hk hkc
      by_cases e : k = i
      · subst e
        rw [hc] at hkc
        have := Option.some.inj hkc
        subst this
        exact hname
      · exact hbefore k c (by omega) hkc

/-! ### The claims on `citylist.c` -/

/-- C15 (insertion keeps the search tree): for keys in a linear order, every
tree and every city, `insert_bst_latitude` turns a search tree by latitude
(left keys strictly smaller, right keys greater or equal) into a search tree by
latitude, and the cities of the new tree are those of the old one plus the city
inserted, as multisets; the same holds for `insert_bst_longitude` and the
longitude. -/
theorem C15_insert_preserves_bst {K : Type} [LinearOrder K] (t : BSTNode K) (city : City K) :
    (IsBST City.latitude t → IsBST City.latitude (insert_bst_latitude t city)) ∧
    (insert_bst_latitude t city).toList.Perm (city :: t.toList) ∧
    (IsBST City.longitude t → IsBST City.longitude (insert_bst_longitude t city)) ∧
    (insert_bst_longitude t city).toList.Perm (city :: t.toList) := by
  rw [insert_bst_latitude_eq, insert_bst_longitude_eq]
  exact ⟨isBST_insertBy _ t city, toList_insertBy _ t city,
    isBST_insertBy _ t city, toList_insertBy _ t city⟩

theorem C15_insert_preserves_bst_witness :
    (IsBST City.latitude sampleTree ∧
      IsBST City.latitude (insert_bst_latitude sampleTree ⟨"Chicago", "IL", 41, -87, 2700000⟩)) ∧
    (insert_bst_latitude sampleTree ⟨"Chicago", "IL", 41, -87, 2700000⟩).toList.Perm
      (⟨"Chicago", "IL", 41, -87, 2700000⟩ :: sampleTree.toList) ∧
    (IsBST City.longitude sampleTree ∧
      IsBST City.longitude (insert_bst_longitude sampleTree ⟨"Chicago", "IL", 41, -87, 2700000⟩)) ∧
    (insert_bst_longitude sampleTree ⟨"Chicago", "IL", 41, -87, 2700000⟩).toList.Perm
      (⟨"Chicago", "IL", 41, -87, 2700000⟩ :: sampleTree.toList) :=
  have hlat : IsBST City.latitude sampleTree := by simp [IsBST, sampleTree, BSTNode.toList]
  have hlon : IsBST City.longitude sampleTree := by simp [IsBST, sampleTree, BSTNode.toList]
  ⟨⟨hlat, (C15_insert_preserves_bst sampleTree _).1 hlat⟩,
    (C15_insert_preserves_bst sampleTree _).2.1,
    ⟨hlon, (C15_insert_preserves_bst sampleTree _).2.2.1 hlon⟩,
    (C15_insert_preserves_bst sampleTree _).2.2.2⟩

/-- C16 (the traversal sorts): for latitudes in a linear order and every list
of cities, building the tree with `insert_bst_latitude` from the empty tree and
running `inorder_traversal` from index 0 on an array of as many cells as there
are cities succeeds, leaves the index equal to the number of cities, and fills
the array with a permutation of the cities in non-decreasing order of
latitude. -/
theorem C16_inorder_sorts {K : Type} [LinearOrder K] (cities array : List (City K))
    (hlen : array.length = cities.length) :
    ∃ out, inorder_traversal (build_latitude cities) (array, 0) = some (out, cities.length) ∧
      out.Perm cities ∧ out.Pairwise (fun a b => a.latitude ≤ b.latitude) := by
  obtain ⟨hbst, hperm⟩ := foldl_insertBy City.latitude cities .null (by simp [IsBST])
  rw [← build_latitude_eq] at hbst hperm
  simp only [BSTNode.toList, List.nil_append] at hperm
  have hl : array.length = (build_latitude cities).toList.length := by
    rw [hlen, hperm.length_eq]
  have := inorder_traversal_spec (build_latitude cities) [] array [] hl
  simp only [List.nil_append, List.append_nil, List.length_nil, Nat.zero_add] at this
  rw [hlen] at this
  exact ⟨_, this, hperm, pairwise_toList _ _ hbst⟩

theorem C16_inorder_sorts_witness :
    sample.length = sample.length ∧
      ∃ out, inorder_traversal (build_latitude sample) (sample, 0) = some (out, sample.length) ∧
        out.Perm sample ∧ out.Pairwise (fun a b => a.latitude ≤ b.latitude) :=
  ⟨rfl, C16_inorder_sorts sample sample rfl⟩

/-- C17 (first match): for every array of `size` cities and every target
name, `linear_search` returns; it returns -1 exactly when no city of the array
has the target name, and otherwise it returns an index below `size` whose city
has the target name while no city at a smaller index has it. -/
theorem C17_linear_search_first {K : Type} (array : List (City K)) (size : Nat)
    (target : String) (hsize : size = array.length) :
    ∃ r : Int, linear_search array size target = some r ∧
      (r = -1 ↔ ∀ c ∈ array, c.name ≠ target) ∧
      (r ≠ -1 → ∃ j : Nat, r = (j : Int) ∧ j < size ∧
        (∃ c, array[j]? = some c ∧ c.name = target) ∧
        ∀ (k : Nat) (c : City K), k < j → array[k]? = some c → c.name ≠ target) := by
  subst hsize
  obtain ⟨r, hr, h⟩ := linear_search_loop_spec array target array.length 0 (by omega)
    (fun k c hk _ => absurd hk (Nat.not_lt_zero k))
  refine ⟨r, hr, ?_, ?_⟩
  · rcases h with ⟨h1, h2⟩ | ⟨j, h1, h2, ⟨c, hc, hn⟩, h4⟩
    · exact ⟨fun _ => h2, fun _ => h1⟩
    · constructor
      · intro hneg
        omega
      · intro hall
        exact absurd hn (hall c (List.getElem?_mem hc))
  · intro hne
    rcases h with ⟨h1, _⟩ | h
    · exact absurd h1 hne
    · exact h

theorem C17_linear_search_first_witness :
    3 = sample.length ∧
      ∃ r : Int, linear_search sample 3 "Chicago" = some r ∧
        (r = -1 ↔ ∀ c ∈ sample, c.name ≠ "Chicago") ∧
        (r ≠ -1 → ∃ j : Nat, r = (j : Int) ∧ j < 3 ∧
          (∃ c, sample[j]? = some c ∧ c.name = "Chicago") ∧
          ∀ (k : Nat) (c : City Int), k < j → sample[k]? = some c → c.name ≠ "Chicago") :=
  ⟨rfl, C17_linear_search_first sample 3 "Chicago" rfl⟩

end CityList
